import Mathlib

/-!
A shallow embedding of the `race-radar` repository's normalization,
classification, ranking and merge pipeline (`src/tools/normalize.py`,
`src/tools/classify.py`, `src/tools/update_feed.py`), together with proofs
settling the specification claims about it.

Python strings are modelled as their sequences of Unicode code points
(`List Char` / Lean `String`).  Python `datetime` values are modelled as a
calendar date plus a second-of-day.  Regular-expression scanning done by the
source is modelled by hand-written scanners that follow CPython's
backtracking semantics for the concrete patterns appearing in the source.
Character classes written `\d`/`\s` in the source are modelled at ASCII
granularity, which is exact on every input considered here.
-/

namespace RaceRadar

/-- ASCII approximation of Python's `\s` / `str.strip` whitespace. -/
def isPySpace (c : Char) : Bool :=
  c = ' ' || c = '\t' || c = '\n' || c = '\r' || c = '\x0b' || c = '\x0c'

/-- ASCII decimal digit, the relevant fragment of Python's `\d`. -/
def isPyDigit (c : Char) : Bool :=
  '0' ≤ c && c ≤ '9'

/-- ASCII lower-casing, the relevant fragment of Python's `str.lower`. -/
def asciiLower (c : Char) : Char :=
  if 'A' ≤ c && c ≤ 'Z' then Char.ofNat (c.toNat + 32) else c

def lowerList (s : List Char) : List Char :=
  s.map asciiLower

/-- Does `s` start with `pat`? (`str.startswith`). -/
def leadsWith : List Char → List Char → Bool
  | [], _ => true
  | _ :: _, [] => false
  | p :: ps, c :: cs => p = c && leadsWith ps cs

/-- Python's substring test `pat in s`. -/
def containsSub (pat : List Char) : List Char → Bool
  | [] => leadsWith pat []
  | c :: rest => leadsWith pat (c :: rest) || containsSub pat rest

/-- Case-insensitive substring test (for `re.search` of a literal pattern
with `re.IGNORECASE`). -/
def containsSubCI (pat s : List Char) : Bool :=
  containsSub (lowerList pat) (lowerList s)

/-- Python string comparison `a < b`: lexicographic on code points. -/
def pyStrLt : List Char → List Char → Bool
  | [], [] => false
  | [], _ :: _ => true
  | _ :: _, [] => false
  | a :: as_, b :: bs => if a < b then true else if b < a then false else pyStrLt as_ bs

/-- Collapse each maximal whitespace run to a single space
(`re.sub(r'\s+', ' ', title)`); the flag records whether the previous
character was part of a whitespace run. -/
def collapseWsGo : Bool → List Char → List Char
  | _, [] => []
  | prevSp, c :: rest =>
    if isPySpace c then
      (if prevSp then collapseWsGo true rest else ' ' :: collapseWsGo true rest)
    else c :: collapseWsGo false rest

def collapseWs (s : List Char) : List Char :=
  collapseWsGo false s

/-- Python `str.strip()` (ASCII whitespace fragment). -/
def stripPy (s : List Char) : List Char :=
  ((s.dropWhile isPySpace).reverse.dropWhile isPySpace).reverse

/-- Python `s.rstrip("/")`. -/
def rstripSlash (s : List Char) : List Char :=
  (s.reverse.dropWhile (fun c => c = '/')).reverse

/-! ## Title validator (`normalize.py`, `normalize_title`) -/

/-- The boilerplate rejection patterns of `normalize_title` (all are literal
alternatives, searched with `re.IGNORECASE`; `(京|ICP)备` is the two literals
`京备` and `ICP备`). -/
def titleInvalid (t : List Char) : Bool :=
  containsSubCI "京备".data t || containsSubCI "ICP备".data t ||
  containsSubCI "版权所有".data t ||
  containsSubCI "联系我们".data t ||
  containsSubCI "隐私政策".data t ||
  containsSubCI "网站地图".data t ||
  containsSubCI "技术支持".data t ||
  containsSubCI "Power by".data t ||
  containsSubCI "All Rights Reserved".data t

/-- Character class of the date-only title pattern `^[\d\s年\.月日:-]+$`. -/
def isDateOnlyChar (c : Char) : Bool :=
  isPyDigit c || isPySpace c || c = '年' || c = '.' || c = '月' || c = '日' ||
  c = ':' || c = '-'

def contestKeywords : List (List Char) :=
  ["大赛".data, "竞赛".data, "挑战赛".data, "杯".data, "赛".data,
   "Contest".data, "Challenge".data, "选拔".data, "Olympic".data, "Hackathon".data]

def noticeKeywords : List (List Char) :=
  ["通知".data, "公告".data, "新闻".data, "Notice".data, "News".data,
   "Announcement".data]

/-- `normalize_title` from `src/tools/normalize.py`: returns the cleaned
title, or `none` when the candidate must be dropped. -/
def normalize_title (title : String) : Option String :=
  if title.data = [] then none
  else
    let t := stripPy (collapseWs title.data)
    if titleInvalid t then none
    else if t ≠ [] && t.all isDateOnlyChar then none
    else if t.length < 4 then none
    else
      let isNotice := noticeKeywords.any (fun k => containsSub k t)
      let hasContest := contestKeywords.any (fun k => containsSub k t)
      if isNotice && !hasContest then none
      else some (String.mk t)

/-! ## Calendar dates (`datetime.strptime(s, "%Y-%m-%d")`, `%Y-%m-%d` formatting) -/

def isLeap (y : Nat) : Bool :=
  y % 4 = 0 && (y % 100 ≠ 0 || y % 400 = 0)

def daysInMonth (y m : Nat) : Nat :=
  if m = 2 then (if isLeap y then 29 else 28)
  else if m = 4 || m = 6 || m = 9 || m = 11 then 30
  else 31

structure Date where
  year : Nat
  month : Nat
  day : Nat
deriving DecidableEq, Repr

def validDate (d : Date) : Bool :=
  1 ≤ d.year && d.year ≤ 9999 && 1 ≤ d.month && d.month ≤ 12 &&
  1 ≤ d.day && d.day ≤ daysInMonth d.year d.month

/-- Split a character list on a separator (Python `str.split(sep)`). -/
def splitOnChar (sep : Char) : List Char → List (List Char)
  | [] => [[]]
  | c :: rest =>
    if c = sep then [] :: splitOnChar sep rest
    else
      match splitOnChar sep rest with
      | [] => [[c]]
      | g :: gs => (c :: g) :: gs

def digitVal (c : Char) : Nat :=
  c.toNat - 48

/-- The `%Y` field of `strptime`: exactly four decimal digits. -/
def yearField : List Char → Option Nat
  | [a, b, c, d] =>
    if isPyDigit a && isPyDigit b && isPyDigit c && isPyDigit d then
      some (1000 * digitVal a + 100 * digitVal b + 10 * digitVal c + digitVal d)
    else none
  | _ => none

/-- The `%m` field of `strptime`: `1[0-2]|0[1-9]|[1-9]` matched against the
whole dash-delimited field. -/
def monthField : List Char → Option Nat
  | [c] => if '1' ≤ c && c ≤ '9' then some (digitVal c) else none
  | [a, b] =>
    if a = '1' && ('0' ≤ b && b ≤ '2') then some (10 + digitVal b)
    else if a = '0' && ('1' ≤ b && b ≤ '9') then some (digitVal b)
    else none
  | _ => none

/-- The `%d` field of `strptime`: `3[01]|[12]\d|0[1-9]|[1-9]`. -/
def dayField : List Char → Option Nat
  | [c] => if '1' ≤ c && c ≤ '9' then some (digitVal c) else none
  | [a, b] =>
    if a = '3' && (b = '0' || b = '1') then some (30 + digitVal b)
    else if (a = '1' || a = '2') && isPyDigit b then some (10 * digitVal a + digitVal b)
    else if a = '0' && ('1' ≤ b && b ≤ '9') then some (digitVal b)
    else none
  | _ => none

/-- `datetime.strptime(s, "%Y-%m-%d")`, returning `none` where Python raises
`ValueError` (the pattern must consume the whole string, and the resulting
calendar date must exist; `datetime` requires `year ≥ 1`). -/
def parseDate (s : String) : Option Date :=
  match splitOnChar '-' s.data with
  | [p1, p2, p3] =>
    match yearField p1, monthField p2, dayField p3 with
    | some y, some m, some d =>
      if 1 ≤ y && d ≤ daysInMonth y m then some ⟨y, m, d⟩ else none
    | _, _, _ => none
  | _ => none

def digitChar (n : Nat) : Char :=
  Char.ofNat (48 + n)

def pad2 (n : Nat) : List Char :=
  [digitChar (n / 10 % 10), digitChar (n % 10)]

def pad4 (n : Nat) : List Char :=
  [digitChar (n / 1000 % 10), digitChar (n / 100 % 10), digitChar (n / 10 % 10),
   digitChar (n % 10)]

/-- `now.strftime("%Y-%m-%d")` for four-digit years. -/
def fmtDate (d : Date) : List Char :=
  pad4 d.year ++ '-' :: (pad2 d.month ++ '-' :: pad2 d.day)

/-- A Python `datetime.now()` value: a calendar date plus the second of the
day (sub-second precision is irrelevant to every comparison in the source). -/
structure PyTime where
  date : Date
  sec : Nat
deriving DecidableEq, Repr

/-- Chronological (= lexicographic) strict order on dates. -/
def dateLtB (a b : Date) : Bool :=
  a.year < b.year ||
  (a.year = b.year && (a.month < b.month || (a.month = b.month && a.day < b.day)))

/-- `datetime(d, 00:00) < now`. -/
def midnightLtNow (d : Date) (now : PyTime) : Bool :=
  dateLtB d now.date || (d = now.date && 0 < now.sec)

/-- `now <= datetime(d, 00:00)` (equivalently `datetime(d, 00:00) >= now`). -/
def nowLeMidnight (now : PyTime) (d : Date) : Bool :=
  dateLtB now.date d || (now.date = d && now.sec = 0)

/-- `datetime(d, 00:00) <= now`. -/
def midnightLeNow (d : Date) (now : PyTime) : Bool :=
  dateLtB d now.date || d = now.date

/-- `now < datetime(d, 00:00)` (equivalently `datetime(d, 00:00) > now`). -/
def nowLtMidnight (now : PyTime) (d : Date) : Bool :=
  dateLtB now.date d

/-! ## Status resolver (`normalize.py`, `determine_status`) -/

/-- `determine_status(start_date, deadline)` from `src/tools/normalize.py`,
with `datetime.now()` made an explicit parameter.  Malformed date strings
parse to `none` (Python catches the `ValueError` and keeps `None`). -/
def determine_status (start_date deadline : String) (now : PyTime) : String :=
  let today_str := fmtDate now.date
  let dl := parseDate deadline
  let st := parseDate start_date
  if (match dl with | some D => midnightLtNow D now | none => false) &&
      pyStrLt deadline.data today_str then "ended"
  else if (match st with | some S => nowLtMidnight now S | none => false) then "upcoming"
  else if (match st, dl with
           | some S, some D => midnightLeNow S now && nowLeMidnight now D
           | _, _ => false) then "ongoing"
  else if (match dl with | some D => nowLeMidnight now D | none => false) then "open"
  else "unknown"

/-- The calendar day before `d`. -/
def prevDate (d : Date) : Date :=
  if 1 < d.day then ⟨d.year, d.month, d.day - 1⟩
  else if 1 < d.month then ⟨d.year, d.month - 1, daysInMonth d.year (d.month - 1)⟩
  else ⟨d.year - 1, 12, 31⟩

/-! ## Monetary extraction (`normalize.py`, `extract_bonus_max` / `extract_bonus`)

The source scans the text with two regexes
(`money_pattern`, `money_pattern_prefix`, both `re.IGNORECASE`) via
`re.finditer`.  The scanners below reproduce CPython's leftmost,
greedy-with-backtracking semantics for those two concrete patterns. -/

/-- A non-negative fraction kept unreduced (all the Python `float` values
arising in the extractor are exact decimals, so exact fractions model them
faithfully; we avoid `Rat` only because its normalization does not reduce
inside the kernel). `den` is always positive. -/
structure Frac where
  num : Nat
  den : Nat
deriving DecidableEq, Repr

def Frac.ofNat (n : Nat) : Frac := ⟨n, 1⟩

def Frac.mul (a b : Frac) : Frac := ⟨a.num * b.num, a.den * b.den⟩

/-- `int()` of a non-negative value: floor. -/
def Frac.floorNat (v : Frac) : Nat := v.num / v.den

def Frac.pos (v : Frac) : Bool := 0 < v.num

/-- The fixed exchange-rate constant `EXCHANGE_USD_TO_RMB = 7.2`. -/
def EXCHANGE_USD_TO_RMB : Frac := ⟨36, 5⟩

/-- `text.replace(",", "").replace("，", "").replace(" ", "")`. -/
def stripSeps (s : List Char) : List Char :=
  s.filter (fun c => c ≠ ',' && c ≠ '，' && c ≠ ' ')

/-- The `cn_map` table of `_parse_cn_number`. -/
def cnVal (c : Char) : Option Nat :=
  if c = '一' then some 1 else if c = '二' then some 2 else if c = '三' then some 3
  else if c = '四' then some 4 else if c = '五' then some 5
  else if c = '六' then some 6 else if c = '七' then some 7
  else if c = '八' then some 8 else if c = '九' then some 9
  else if c = '十' then some 10 else if c = '百' then some 100
  else if c = '千' then some 1000 else if c = '万' then some 10000
  else none

def digitsToNat (ds : List Char) : Nat :=
  ds.foldl (fun a c => a * 10 + digitVal c) 0

/-- First match of `(\d+(\.\d+)?)` in the text, as an exact fraction
(Python uses `float`). -/
def firstDecimal : List Char → Option Frac
  | [] => none
  | c :: rest =>
    if isPyDigit c then
      let intRun := (c :: rest).takeWhile isPyDigit
      let rest2 := (c :: rest).dropWhile isPyDigit
      let intPart := digitsToNat intRun
      match rest2 with
      | '.' :: r3 =>
        let fr := r3.takeWhile isPyDigit
        if fr.isEmpty then some (Frac.ofNat intPart)
        else some ⟨intPart * 10 ^ fr.length + digitsToNat fr, 10 ^ fr.length⟩
      | _ => some (Frac.ofNat intPart)
    else firstDecimal rest

/-- One step of the accumulator loop of `_parse_cn_number`
(state: `(val, curr, last_unit)`). -/
def cnStep (st : Nat × Nat × Nat) (c : Char) : Nat × Nat × Nat :=
  match cnVal c with
  | none => st
  | some n =>
    let (val, curr, lu) := st
    if 10 ≤ n then
      let curr2 := if curr = 0 then 1 else curr
      if lu < n then ((val + curr2) * n, 0, n) else (val + curr2 * n, 0, n)
    else (val, n, lu)

/-- `_parse_cn_number` from `src/tools/normalize.py`. -/
def parse_cn_number (t : List Char) : Option Frac :=
  if t.isEmpty then none
  else
    match firstDecimal t with
    | some q => some q
    | none =>
      let st := t.foldl cnStep (0, 0, 1)
      let v := st.1 + st.2.1
      if 0 < v then some (Frac.ofNat v) else none

/-- `_parse_number` from `src/tools/normalize.py`. -/
def parse_number (s : List Char) : Option Frac :=
  let t := stripSeps s
  if !t.any isPyDigit then parse_cn_number t
  else firstDecimal t

/-- `parse_val(num_str, unit_str)` (inner helper of `extract_bonus_max`);
Python's `int()` truncation coincides with the floor of the exact value on
the non-negative decimals produced here. -/
def parse_val (numStr unitStr : List Char) : Int :=
  if unitStr = "$".data || unitStr = "USD".data || unitStr = "¥".data ||
      unitStr = "￥".data then
    match parse_number numStr with
    | none => 0
    | some v =>
      if unitStr = "$".data || unitStr = "USD".data then
        Int.ofNat (Frac.floorNat (v.mul EXCHANGE_USD_TO_RMB))
      else Int.ofNat v.floorNat
  else
    match parse_number numStr with
    | none => 0
    | some v =>
      let u := lowerList unitStr
      if u = "万元".data || u = "万".data || u = "w".data then
        Int.ofNat (Frac.floorNat (v.mul (Frac.ofNat 10000)))
      else if u = "美金".data || u = "美元".data || u = "usd".data ||
          u = "$".data then
        Int.ofNat (Frac.floorNat (v.mul EXCHANGE_USD_TO_RMB))
      else Int.ofNat v.floorNat

/-- A money mention found in the text: converted amount and the span
`[start, stop)` of the regex match (the matched text itself is recovered
from the span when needed). -/
structure MoneyMatch where
  amount : Int
  start : Nat
  stop : Nat
deriving DecidableEq, Repr

/-- Character class `[一二三四五六七八九十百千万\d\.,]` of the money regex. -/
def isMoneyNumChar (c : Char) : Bool :=
  c = '一' || c = '二' || c = '三' || c = '四' || c = '五' || c = '六' ||
  c = '七' || c = '八' || c = '九' || c = '十' || c = '百' || c = '千' ||
  c = '万' || isPyDigit c || c = '.' || c = ','

/-- Character class `[-至~]` (the range separator). -/
def isRangeSep (c : Char) : Bool :=
  c = '-' || c = '至' || c = '~'

/-- The unit alternation `(万元|万|w|W|元|RMB|¥|美金|美元|USD|\$)`, tried in
this order (regex alternation is first-match). -/
def unitAlternatives : List (List Char) :=
  ["万元".data, "万".data, "w".data, "W".data, "元".data, "RMB".data, "¥".data,
   "美金".data, "美元".data, "USD".data, "$".data]

/-- Case-insensitive "starts with" (for `re.IGNORECASE` literals). -/
def ciLeadsWith (pat s : List Char) : Bool :=
  leadsWith (lowerList pat) (lowerList s)

/-- Match the unit alternation at the head of `s`; returns the original
matched characters and the rest. -/
def matchUnit (s : List Char) : Option (List Char × List Char) :=
  unitAlternatives.findSome? (fun a =>
    if ciLeadsWith a s then some (s.take a.length, s.drop a.length) else none)

def numRunLen (s : List Char) : Nat :=
  (s.takeWhile isMoneyNumChar).length

def wsRunLen (s : List Char) : Nat :=
  (s.takeWhile isPySpace).length

/-- Candidate lengths for a greedy `+` (longest first, down to 1). -/
def downTo1 (n : Nat) : List Nat :=
  (List.range n).map (fun i => n - i)

/-- Candidate lengths for a greedy `*` (longest first, down to 0). -/
def downTo0 (n : Nat) : List Nat :=
  (List.range (n + 1)).map (fun i => n - i)

/-- Backtracking match of `([class]+)\s*(unit)` at the head of `s`:
returns the number string (group 2), the unit string (group 3) and the
number of characters consumed. -/
def matchNumUnit (s : List Char) : Option (List Char × List Char × Nat) :=
  (downTo1 (numRunLen s)).findSome? (fun n =>
    let numStr := s.take n
    let s2 := s.drop n
    (downTo0 (wsRunLen s2)).findSome? (fun w =>
      match matchUnit (s2.drop w) with
      | some (u, _) => some (numStr, u, n + w + u.length)
      | none => none))

/-- Backtracking match of the full suffix money pattern
`(?:([class]+)\s*[-至~]\s*)?([class]+)\s*(unit)` at the head of `s`
(the greedy optional range group is tried present-first, longest-first,
exactly as CPython does). -/
def matchSuffixAt (s : List Char) : Option (List Char × List Char × Nat) :=
  let withRange :=
    (downTo1 (numRunLen s)).findSome? (fun n1 =>
      let s2 := s.drop n1
      (downTo0 (wsRunLen s2)).findSome? (fun w1 =>
        match s2.drop w1 with
        | c :: s3 =>
          if isRangeSep c then
            (downTo0 (wsRunLen s3)).findSome? (fun w2 =>
              match matchNumUnit (s3.drop w2) with
              | some (numStr, u, len2) =>
                some (numStr, u, n1 + w1 + 1 + w2 + len2)
              | none => none)
          else none
        | [] => none))
  match withRange with
  | some r => some r
  | none => matchNumUnit s

/-- `re.finditer` of the suffix money pattern: leftmost matches,
non-overlapping, resuming after each match; a match is recorded only when
its converted amount is positive. -/
def scanSuffixGo : Nat → List Char → Nat → List MoneyMatch
  | 0, _, _ => []
  | _, [], _ => []
  | fuel + 1, c :: rest, p =>
    match matchSuffixAt (c :: rest) with
    | some (numStr, u, len) =>
      let amount := parse_val numStr u
      (if 0 < amount then [⟨amount, p, p + len⟩] else []) ++
        scanSuffixGo fuel ((c :: rest).drop len) (p + len)
    | none => scanSuffixGo fuel rest (p + 1)

/-- The currency-symbol alternation `(\$|USD|¥|￥)` of the prefix pattern. -/
def currencyAlts : List (List Char) :=
  ["$".data, "USD".data, "¥".data, "￥".data]

def matchCurrencyAt (s : List Char) : Option (List Char × Nat) :=
  currencyAlts.findSome? (fun a =>
    if ciLeadsWith a s then some (s.take a.length, a.length) else none)

/-- Match the prefix money pattern `(\$|USD|¥|￥)\s*([class]+)` at the head
of `s` (whitespace is not a class character, so the greedy `\s*` needs no
backtracking). -/
def matchPreAt (s : List Char) : Option (List Char × List Char × Nat) :=
  match matchCurrencyAt s with
  | none => none
  | some (u, ul) =>
    let s2 := s.drop ul
    let w := wsRunLen s2
    let s3 := s2.drop w
    let n := numRunLen s3
    if n = 0 then none else some (s3.take n, u, ul + w + n)

/-- `re.finditer` of the prefix money pattern. -/
def scanPreGo : Nat → List Char → Nat → List MoneyMatch
  | 0, _, _ => []
  | _, [], _ => []
  | fuel + 1, c :: rest, p =>
    match matchPreAt (c :: rest) with
    | some (numStr, u, len) =>
      let amount := parse_val numStr u
      (if 0 < amount then [⟨amount, p, p + len⟩] else []) ++
        scanPreGo fuel ((c :: rest).drop len) (p + len)
    | none => scanPreGo fuel rest (p + 1)

def maxKeywords : List (List Char) :=
  ["冠军".data, "一等奖".data, "金奖".data, "最高奖".data, "最高可得".data,
   "单项".data, "First Prize".data, "Winner".data, "Champion".data,
   "Top Prize".data, "每队".data, "各".data]

def poolKeywords : List (List Char) :=
  ["总奖金".data, "奖池".data, "总额".data, "Total Prize".data,
   "Prize Pool".data, "总奖池".data]

/-- The ±20-character context window `t[max(0, start-20) : min(len, end+20)]`
around a match. -/
def contextOf (t : List Char) (m : MoneyMatch) : List Char :=
  let start := m.start - 20
  let stop := min t.length (m.stop + 20)
  (t.drop start).take (stop - start)

def isPoolMatch (t : List Char) (m : MoneyMatch) : Bool :=
  poolKeywords.any (fun k => containsSub k (contextOf t m))

def isMaxMatch (t : List Char) (m : MoneyMatch) : Bool :=
  maxKeywords.any (fun k => containsSub k (contextOf t m))

/-- Python's `max(candidates, key=amount)`: the first element of maximal
amount. -/
def firstMax (l : List MoneyMatch) : Option MoneyMatch :=
  l.foldl (fun acc m =>
    match acc with
    | none => some m
    | some b => if b.amount < m.amount then some m else some b) none

/-- The ±15-character snippet around a match
(`.replace("\n", " ").strip()`), or `"-"` when there is no match. -/
def getSnippet (t : List Char) : Option MoneyMatch → List Char
  | none => "-".data
  | some m =>
    let s := m.start - 15
    let e := min t.length (m.stop + 15)
    stripPy (((t.drop s).take (e - s)).map (fun c => if c = '\n' then ' ' else c))

/-- All money mentions of the text, suffix-pattern matches first, then
prefix-pattern matches (the source runs the two `finditer` loops in this
order). -/
def allMoneyMatches (t : List Char) : List MoneyMatch :=
  scanSuffixGo (t.length + 1) t 0 ++ scanPreGo (t.length + 1) t 0

/-- `extract_bonus_max(text)` from `src/tools/normalize.py`: returns
`(bonus_amount, bonus_text, pool_amount, pool_text)`. -/
def extract_bonus_max (text : String) : Int × String × Int × String :=
  if text.data = [] then (0, "-", 0, "-")
  else
    let t := text.data
    let ms := allMoneyMatches t
    if ms.isEmpty then (0, "-", 0, "-")
    else
      let pools := ms.filter (fun m => isPoolMatch t m)
      let nonPools := ms.filter (fun m => !isPoolMatch t m)
      let maxes := nonPools.filter (fun m => isMaxMatch t m)
      let others := nonPools.filter (fun m => !isMaxMatch t m)
      let bonusMatch : Option MoneyMatch :=
        match firstMax maxes with
        | some b => some b
        | none =>
          match firstMax others with
          | some b => if 100 ≤ b.amount then some b else none
          | none => none
      let bonusAmount := match bonusMatch with | some b => b.amount | none => 0
      let poolMatch := firstMax pools
      let poolAmount := match poolMatch with | some b => b.amount | none => 0
      (bonusAmount, String.mk (getSnippet t bonusMatch),
       poolAmount, String.mk (getSnippet t poolMatch))

/-- `extract_bonus(text)`: the legacy wrapper returning only the
single-prize bucket. -/
def extract_bonus (text : String) : Int × String :=
  let r := extract_bonus_max text
  (r.1, r.2.1)

/-! ## UTF-8 and percent-coding (`urllib.parse` internals)

The URL machinery of the source is CPython 3.11's `urllib/parse.py`; the
definitions below embed the parts it uses.  Python `str` values are
sequences of Unicode scalar values (Lean `Char`; CPython additionally
admits lone surrogates, which cannot arise in this pipeline). -/

def utf8Bytes (c : Char) : List Nat :=
  let v := c.toNat
  if v < 128 then [v]
  else if v < 2048 then [192 + v / 64, 128 + v % 64]
  else if v < 65536 then [224 + v / 4096, 128 + v / 64 % 64, 128 + v % 64]
  else [240 + v / 262144, 128 + v / 4096 % 64, 128 + v / 64 % 64, 128 + v % 64]

def utf8Encode (s : List Char) : List Nat :=
  s.foldr (fun c acc => utf8Bytes c ++ acc) []

def isCont (b : Nat) : Bool :=
  128 ≤ b && b ≤ 191

/-- U+FFFD, the replacement character of `errors='replace'` decoding. -/
def replChar : Char := '�'

/-- Lower bound for the second byte after a three-byte starter (strict
UTF-8: no overlongs, no surrogates). -/
def cont3lo (b : Nat) : Nat := if b = 224 then 160 else 128

/-- Upper bound for the second byte after a three-byte starter. -/
def cont3hi (b : Nat) : Nat := if b = 237 then 159 else 191

/-- Lower bound for the second byte after a four-byte starter. -/
def cont4lo (b : Nat) : Nat := if b = 240 then 144 else 128

/-- Upper bound for the second byte after a four-byte starter. -/
def cont4hi (b : Nat) : Nat := if b = 244 then 143 else 191

/-- Strict UTF-8 decoding with `errors='replace'`: each maximal subpart of
an ill-formed sequence becomes one U+FFFD, as in CPython. -/
def utf8Decode : List Nat → List Char
  | [] => []
  | b :: rest =>
    if b ≤ 127 then Char.ofNat b :: utf8Decode rest
    else if 194 ≤ b && b ≤ 223 then
      match rest with
      | [] => [replChar]
      | b2 :: r2 =>
        if isCont b2 then
          Char.ofNat ((b - 192) * 64 + (b2 - 128)) :: utf8Decode r2
        else replChar :: utf8Decode (b2 :: r2)
    else if 224 ≤ b && b ≤ 239 then
      match rest with
      | [] => [replChar]
      | b2 :: r2 =>
        if cont3lo b ≤ b2 && b2 ≤ cont3hi b then
          match r2 with
          | [] => [replChar]
          | b3 :: r3 =>
            if isCont b3 then
              Char.ofNat ((b - 224) * 4096 + (b2 - 128) * 64 + (b3 - 128)) ::
                utf8Decode r3
            else replChar :: utf8Decode (b3 :: r3)
        else replChar :: utf8Decode (b2 :: r2)
    else if 240 ≤ b && b ≤ 244 then
      match rest with
      | [] => [replChar]
      | b2 :: r2 =>
        if cont4lo b ≤ b2 && b2 ≤ cont4hi b then
          match r2 with
          | [] => [replChar]
          | b3 :: r3 =>
            if isCont b3 then
              match r3 with
              | [] => [replChar]
              | b4 :: r4 =>
                if isCont b4 then
                  Char.ofNat ((b - 240) * 262144 + (b2 - 128) * 4096 +
                      (b3 - 128) * 64 + (b4 - 128)) :: utf8Decode r4
                else replChar :: utf8Decode (b4 :: r4)
            else replChar :: utf8Decode (b3 :: r3)
        else replChar :: utf8Decode (b2 :: r2)
    else replChar :: utf8Decode rest

def hexDigVal (c : Char) : Option Nat :=
  if '0' ≤ c && c ≤ '9' then some (c.toNat - 48)
  else if 'A' ≤ c && c ≤ 'F' then some (c.toNat - 55)
  else if 'a' ≤ c && c ≤ 'f' then some (c.toNat - 87)
  else none

/-- Percent-decoding to a byte sequence: `%XX` with two hex digits becomes
one byte, any other character contributes its UTF-8 bytes (equivalent to
CPython's split-on-`%`/ASCII-run processing in `unquote`). -/
def pctDecodeBytes : List Char → List Nat
  | [] => []
  | '%' :: a :: b :: rest =>
    match hexDigVal a, hexDigVal b with
    | some ha, some hb => (ha * 16 + hb) :: pctDecodeBytes rest
    | _, _ => 37 :: pctDecodeBytes (a :: b :: rest)
  | '%' :: rest => 37 :: pctDecodeBytes rest
  | c :: rest => utf8Bytes c ++ pctDecodeBytes rest

/-- `urllib.parse.unquote` with the defaults used by `parse_qsl`
(`encoding='utf-8'`, `errors='replace'`). -/
def pyUnquote (s : List Char) : List Char :=
  utf8Decode (pctDecodeBytes s)

/-- `unquote` after `.replace('+', ' ')`, as `parse_qsl` does. -/
def unquotePlus (s : List Char) : List Char :=
  pyUnquote (s.map (fun c => if c = '+' then ' ' else c))

/-- `_ALWAYS_SAFE`: ASCII alphanumerics and `_.-~`. -/
def isAlwaysSafe (c : Char) : Bool :=
  ('A' ≤ c && c ≤ 'Z') || ('a' ≤ c && c ≤ 'z') || ('0' ≤ c && c ≤ '9') ||
  c = '_' || c = '.' || c = '-' || c = '~'

def hexDigitUpper (n : Nat) : Char :=
  if n < 10 then Char.ofNat (48 + n) else Char.ofNat (55 + n)

def pctByte (b : Nat) : List Char :=
  ['%', hexDigitUpper (b / 16), hexDigitUpper (b % 16)]

/-- `quote_plus(c, safe='')` restricted to one character: safe characters
stay, a space becomes `+`, everything else is `%XX`-encoded per UTF-8
byte. -/
def quotePlusChar (c : Char) : List Char :=
  if isAlwaysSafe c then [c]
  else if c = ' ' then ['+']
  else (utf8Bytes c).foldr (fun b acc => pctByte b ++ acc) []

/-- `quote_plus(s, safe='')` (the `quote_via` used by `urlencode`). -/
def quotePlus (s : List Char) : List Char :=
  s.foldr (fun c acc => quotePlusChar c ++ acc) []

/-! ## `urlparse` / `urlunparse` / `parse_qsl` / `urlencode` (CPython 3.11) -/

/-- Split at the first occurrence of `sep` (Python `s.split(sep, 1)`),
`none` when `sep` does not occur. -/
def splitFirst (sep : Char) : List Char → Option (List Char × List Char)
  | [] => none
  | c :: rest =>
    if c = sep then some ([], rest)
    else
      match splitFirst sep rest with
      | some (a, b) => some (c :: a, b)
      | none => none

def splitAtFirstOpt (sep : Char) (s : List Char) : List Char × List Char :=
  match splitFirst sep s with
  | some (a, b) => (a, b)
  | none => (s, [])

def isAsciiAlpha (c : Char) : Bool :=
  ('A' ≤ c && c ≤ 'Z') || ('a' ≤ c && c ≤ 'z')

/-- `scheme_chars`. -/
def isSchemeChar (c : Char) : Bool :=
  isAsciiAlpha c || isPyDigit c || c = '+' || c = '-' || c = '.'

/-- Scheme recognition in `urlsplit`: `i = url.find(':')`, accepted when the
part before the colon is a nonempty run of scheme characters starting with
an ASCII letter; the scheme is lower-cased. -/
def splitScheme (s : List Char) : List Char × List Char :=
  match splitFirst ':' s with
  | some (before, after) =>
    if !before.isEmpty && isAsciiAlpha (before.headD ' ') &&
        before.all isSchemeChar then
      (lowerList before, after)
    else ([], s)
  | none => ([], s)

def isNetlocDelim (c : Char) : Bool :=
  c = '/' || c = '?' || c = '#'

/-- `_splitnetloc`: the netloc runs to the first `/`, `?` or `#`. -/
def splitNetloc (s : List Char) : List Char × List Char :=
  (s.takeWhile (fun c => !isNetlocDelim c), s.dropWhile (fun c => !isNetlocDelim c))

/-- The IPv6-bracket validation of `urlsplit`.  A netloc with exactly one of
`[`/`]` raises `ValueError`; a bracketed host is further validated (CPython
parses it with `ipaddress` — approximated here as: nonempty and made of hex
digits, colons and dots, rejecting a plain `.`-only (IPv4) content).
Determinism, which is all the claims rely on, is exact. -/
def netlocBracketsOk (n : List Char) : Bool :=
  if n.contains '[' ≠ n.contains ']' then false
  else if n.contains '[' then
    let host := ((splitAtFirstOpt '[' n).2.takeWhile (fun c => c ≠ ']'))
    !host.isEmpty && host.all (fun c => (hexDigVal c).isSome || c = ':' || c = '.') &&
      host.contains ':'
  else true

/-- Leading C0-control-or-space strip of `urlsplit`
(`_WHATWG_C0_CONTROL_OR_SPACE`). -/
def lstripC0 (s : List Char) : List Char :=
  s.dropWhile (fun c => c.toNat ≤ 32)

/-- `_UNSAFE_URL_BYTES_TO_REMOVE`: `\t`, `\r`, `\n` are removed. -/
def removeUnsafe (s : List Char) : List Char :=
  s.filter (fun c => c ≠ '\t' && c ≠ '\r' && c ≠ '\n')

structure UrlParts where
  scheme : List Char
  netloc : List Char
  path : List Char
  params : List Char
  query : List Char
  fragment : List Char
deriving DecidableEq, Repr

/-- `uses_params` membership for the parsed (lower-case) scheme. -/
def usesParams (scheme : List Char) : Bool :=
  ["".data, "ftp".data, "hdl".data, "prospero".data, "http".data, "imap".data,
   "https".data, "shttp".data, "rtsp".data, "rtsps".data, "rtspu".data,
   "sip".data, "sips".data, "mms".data, "sftp".data, "tel".data].any
    (fun s => s = scheme)

/-- `_splitparams` (only ever called when `';'` occurs in the path). -/
def splitParams (url : List Char) : List Char × List Char :=
  if url.contains '/' then
    let afterLast := (url.reverse.takeWhile (fun c => c ≠ '/')).reverse
    match splitFirst ';' afterLast with
    | some (a, b) => (url.take (url.length - afterLast.length) ++ a, b)
    | none => (url, [])
  else splitAtFirstOpt ';' url

/-- `urlparse(url)` (3.11): `urlsplit` plus the params split; `none` models
the `ValueError` raised on bad IPv6 netlocs. -/
def urlparseE (url : List Char) : Option UrlParts :=
  let u := removeUnsafe (lstripC0 url)
  let sr := splitScheme u
  let scheme := sr.1
  let rest := sr.2
  let withNetloc :=
    if rest.take 2 = ['/', '/'] then
      let nl := splitNetloc (rest.drop 2)
      if netlocBracketsOk nl.1 then some (nl.1, nl.2) else none
    else some ([], rest)
  match withNetloc with
  | none => none
  | some (netloc, rest2) =>
    let bf := splitAtFirstOpt '#' rest2
    let pq := splitAtFirstOpt '?' bf.1
    let path := pq.1
    let pp :=
      if usesParams scheme && path.contains ';' then splitParams path
      else (path, [])
    some ⟨scheme, netloc, pp.1, pp.2, pq.2, bf.2⟩

/-- `uses_netloc` membership (only ever queried for `https` here, but kept
faithful). -/
def usesNetloc (scheme : List Char) : Bool :=
  ["".data, "ftp".data, "http".data, "gopher".data, "nntp".data, "telnet".data,
   "imap".data, "wais".data, "file".data, "mms".data, "https".data,
   "shttp".data, "snews".data, "prospero".data, "rtsp".data, "rtsps".data,
   "rtspu".data, "rsync".data, "svn".data, "svn+ssh".data, "sftp".data,
   "nfs".data, "git".data, "git+ssh".data, "ws".data, "wss".data].any
    (fun s => s = scheme)

/-- `urlunsplit` (3.11). -/
def urlunsplitPy (scheme netloc path query fragment : List Char) : List Char :=
  let url0 := path
  let url1 :=
    if !netloc.isEmpty ||
        (!scheme.isEmpty && usesNetloc scheme && url0.take 2 ≠ ['/', '/']) then
      ('/' :: '/' :: netloc) ++
        (if !url0.isEmpty && url0.headD ' ' ≠ '/' then '/' :: url0 else url0)
    else url0
  let url2 := if !scheme.isEmpty then scheme ++ ':' :: url1 else url1
  let url3 := if !query.isEmpty then url2 ++ '?' :: query else url2
  if !fragment.isEmpty then url3 ++ '#' :: fragment else url3

/-- `urlunparse` (the source passes `params = ''`). -/
def urlunparsePy (scheme netloc path params query fragment : List Char) :
    List Char :=
  let url := if !params.isEmpty then path ++ ';' :: params else path
  urlunsplitPy scheme netloc url query fragment

/-- `parse_qsl(qs, keep_blank_values=True)` (3.11): split on `&`, skip empty
segments, split each segment at the first `=` (a missing `=` yields a blank
value), `+` to space and percent-decode both sides. -/
def parse_qsl (qs : List Char) : List (List Char × List Char) :=
  if qs.isEmpty then []
  else
    (splitOnChar '&' qs).foldr (fun seg acc =>
      if seg.isEmpty then acc
      else
        match splitFirst '=' seg with
        | some (n, v) => (unquotePlus n, unquotePlus v) :: acc
        | none => (unquotePlus seg, []) :: acc) []

def joinAmp : List (List Char) → List Char
  | [] => []
  | [x] => x
  | x :: xs => x ++ '&' :: joinAmp xs

/-- `urlencode(q, doseq=True)` on string pairs: quote each side with
`quote_plus`, join with `k=v` and `&`. -/
def urlencodePy (q : List (List Char × List Char)) : List Char :=
  joinAmp (q.map (fun kv => quotePlus kv.1 ++ '=' :: quotePlus kv.2))

/-! ## SHA-1 (`hashlib.sha1`) -/

def w32 (n : Nat) : Nat := n % 4294967296

/-- Structural binary bitwise combinator on 32-bit words (the kernel cannot
reduce `Nat.land`/`Nat.lor`, which are defined by well-founded recursion). -/
def bitZip (f : Bool → Bool → Bool) : Nat → Nat → Nat → Nat
  | 0, _, _ => 0
  | fuel + 1, a, b =>
    bitZip f fuel (a / 2) (b / 2) * 2 +
      (if f (a % 2 = 1) (b % 2 = 1) then 1 else 0)

def andW (a b : Nat) : Nat := bitZip (fun x y => x && y) 32 a b

def orW (a b : Nat) : Nat := bitZip (fun x y => x || y) 32 a b

def xorW (a b : Nat) : Nat := bitZip (fun x y => x ≠ y) 32 a b

def notW (a : Nat) : Nat := 4294967295 - w32 a

def rotl (k n : Nat) : Nat :=
  w32 (n * 2 ^ k + n / 2 ^ (32 - k))

/-- `k` bytes, big-endian. -/
def beBytes (k n : Nat) : List Nat :=
  (List.range k).map (fun i => n / 2 ^ (8 * (k - 1 - i)) % 256)

def beWord (l : List Nat) : Nat :=
  l.foldl (fun a b => a * 256 + b) 0

def sha1Pad (msg : List Nat) : List Nat :=
  let zeros := (56 + 64 - (msg.length + 1) % 64) % 64
  msg ++ 128 :: List.replicate zeros 0 ++ beBytes 8 (msg.length * 8)

def chunks64 : Nat → List Nat → List (List Nat)
  | 0, _ => []
  | _, [] => []
  | fuel + 1, l => l.take 64 :: chunks64 fuel (l.drop 64)

def words16 (chunk : List Nat) : List Nat :=
  (List.range 16).map (fun i => beWord ((chunk.drop (4 * i)).take 4))

def extendWords : Nat → List Nat → List Nat
  | 0, w => w
  | fuel + 1, w =>
    let n := w.length
    let x := rotl 1 (xorW (xorW (xorW (w.getD (n - 3) 0) (w.getD (n - 8) 0))
      (w.getD (n - 14) 0)) (w.getD (n - 16) 0))
    extendWords fuel (w ++ [x])

def sha1F (i b c d : Nat) : Nat :=
  if i < 20 then orW (andW b c) (andW (notW b) d)
  else if i < 40 then xorW (xorW b c) d
  else if i < 60 then orW (orW (andW b c) (andW b d)) (andW c d)
  else xorW (xorW b c) d

def sha1K (i : Nat) : Nat :=
  if i < 20 then 1518500249 else if i < 40 then 1859775393
  else if i < 60 then 2400959708 else 3395469782

def sha1Round (st : Nat × Nat × Nat × Nat × Nat) (iw : Nat × Nat) :
    Nat × Nat × Nat × Nat × Nat :=
  let (a, b, c, d, e) := st
  let (i, w) := iw
  (w32 (rotl 5 a + sha1F i b c d + e + sha1K i + w), a, rotl 30 b, c, d)

def sha1Chunk (h : Nat × Nat × Nat × Nat × Nat) (chunk : List Nat) :
    Nat × Nat × Nat × Nat × Nat :=
  let w := extendWords 64 (words16 chunk)
  let idx := (List.range 80).map (fun i => (i, w.getD i 0))
  let st := idx.foldl sha1Round h
  (w32 (h.1 + st.1), w32 (h.2.1 + st.2.1), w32 (h.2.2.1 + st.2.2.1),
   w32 (h.2.2.2.1 + st.2.2.2.1), w32 (h.2.2.2.2 + st.2.2.2.2))

def sha1Bytes (msg : List Nat) : List Nat :=
  let padded := sha1Pad msg
  let cs := chunks64 (padded.length + 1) padded
  let h := cs.foldl sha1Chunk
    (1732584193, 4023233417, 2562383102, 271733878, 3285377520)
  beBytes 4 h.1 ++ beBytes 4 h.2.1 ++ beBytes 4 h.2.2.1 ++
    beBytes 4 h.2.2.2.1 ++ beBytes 4 h.2.2.2.2

def hexDigitLower (n : Nat) : Char :=
  if n < 10 then Char.ofNat (48 + n) else Char.ofNat (87 + n)

def hexLowerByte (b : Nat) : List Char :=
  [hexDigitLower (b / 16), hexDigitLower (b % 16)]

/-- `hashlib.sha1(s.encode("utf-8")).hexdigest()`. -/
def sha1Hex (s : List Char) : List Char :=
  (sha1Bytes (utf8Encode s)).foldr (fun b acc => hexLowerByte b ++ acc) []

/-! ## URL canonicalization (`normalize.py`, `canonicalize_url`, `id_from_url`) -/

/-- The query-parameter filter: drop names starting (case-insensitively)
with `utm_` and the name `spm`. -/
def keepParam (k : List Char) : Bool :=
  !leadsWith "utm_".data (lowerList k) && lowerList k ≠ "spm".data

/-- `canonicalize_url(url)` from `src/tools/normalize.py`; `none` models a
propagated `ValueError` from `urlparse`. -/
def canonicalize_url_chars (url : List Char) : Option (List Char) :=
  if url.isEmpty then some []
  else
    match urlparseE url with
    | none => none
    | some p =>
      let path := rstripSlash p.path
      let q := (parse_qsl p.query).filter (fun kv => keepParam kv.1)
      let query := urlencodePy q
      some (urlunparsePy "https".data p.netloc path [] query [])

def canonicalize_url (url : String) : Option String :=
  (canonicalize_url_chars url.data).map String.mk

/-- `id_from_url(url)`: the first 16 hex characters of the SHA-1 of the
canonical URL. -/
def id_from_url (url : String) : Option String :=
  (canonicalize_url_chars url.data).map (fun cu => String.mk ((sha1Hex cu).take 16))

/-! ## Merge engine (`update_feed.py`, `merge_items`) -/

/-- A catalog record (the fields touched by `merge_items`; a missing key in
the Python dict is the falsy default of its type). -/
structure Item where
  id : String
  title : String
  bonusAmount : Int
  bonusText : String
  deadline : String
  startDate : String
  status : String
  category : List String
  tags : List String
  qualityScore : Int
  rankReasons : List String
  isWhitelist : Bool
  level : String
  sourceName : String
  sourceUrl : String
  summary : String
  createdAt : String
deriving DecidableEq, Repr

/-- The field-level update of `merge_items`: for each key in the update
list, `if i.get(k): existing[k] = i[k]` (Python truthiness), then
`createdAt` is filled from the new side (or `now_iso()`) only when the
existing record lacks it.  `sourceUrl`, `sourceName`, `summary` and `id`
are not in the list and are never touched. -/
def mergeInto (e i : Item) (nowTs : String) : Item :=
  { e with
    title := if i.title ≠ "" then i.title else e.title
    bonusAmount := if i.bonusAmount ≠ 0 then i.bonusAmount else e.bonusAmount
    bonusText := if i.bonusText ≠ "" then i.bonusText else e.bonusText
    deadline := if i.deadline ≠ "" then i.deadline else e.deadline
    startDate := if i.startDate ≠ "" then i.startDate else e.startDate
    status := if i.status ≠ "" then i.status else e.status
    category := if i.category ≠ [] then i.category else e.category
    tags := if i.tags ≠ [] then i.tags else e.tags
    qualityScore := if i.qualityScore ≠ 0 then i.qualityScore else e.qualityScore
    rankReasons := if i.rankReasons ≠ [] then i.rankReasons else e.rankReasons
    isWhitelist := if i.isWhitelist then i.isWhitelist else e.isWhitelist
    level := if i.level ≠ "" then i.level else e.level
    createdAt :=
      if e.createdAt ≠ "" then e.createdAt
      else if i.createdAt ≠ "" then i.createdAt else nowTs }

def canonKey (it : Item) : Option (List Char) :=
  canonicalize_url_chars it.sourceUrl.data

/-- The `by_url` index: canonical URL to position in the merged list (the
Python dict holds references into the merged list; an index models the
aliasing).  More recent insertions sit in front, so lookup of the first
hit reproduces "later assignment wins". -/
def lookupIdx (l : List (List Char × Nat)) (k : List Char) : Option Nat :=
  match l.find? (fun p => p.1 == k) with
  | some p => some p.2
  | none => none

def updateAt : List Item → Nat → (Item → Item) → List Item
  | [], _, _ => []
  | x :: xs, 0, f => f x :: xs
  | x :: xs, n + 1, f => x :: updateAt xs n f

/-- Building `by_url` from the existing items (`for it in old: by_url[cu] = it`):
an entry for a later duplicate shadows an earlier one; a `ValueError` from
`canonicalize_url` propagates. -/
def initIdx : List Item → Nat → Option (List (List Char × Nat))
  | [], _ => some []
  | it :: rest, n =>
    match canonKey it with
    | none => none
    | some cu =>
      match initIdx rest (n + 1) with
      | none => none
      | some l => some (l ++ [(cu, n)])

structure MergeState where
  merged : List Item
  byUrl : List (List Char × Nat)
  added : List Item
deriving Repr

/-- One iteration of the `for i in new_items` loop. -/
def mergeStep (nowTs : String) (st : MergeState) (i : Item) :
    Option MergeState :=
  match canonKey i with
  | none => none
  | some cu =>
    match lookupIdx st.byUrl cu with
    | some idx =>
      some { st with merged := updateAt st.merged idx (fun e => mergeInto e i nowTs) }
    | none =>
      some { merged := st.merged ++ [i],
             byUrl := (cu, st.merged.length) :: st.byUrl,
             added := st.added ++ [i] }

def mergeLoop (nowTs : String) : MergeState → List Item → Option MergeState
  | st, [] => some st
  | st, i :: rest =>
    match mergeStep nowTs st i with
    | none => none
    | some st2 => mergeLoop nowTs st2 rest

/-- `merge_items(old_items, new_items)` from `src/tools/update_feed.py`
(`now_iso()` made an explicit parameter); returns `(merged, added)`. -/
def merge_items (old new : List Item) (nowTs : String) :
    Option (List Item × List Item) :=
  match initIdx old 0 with
  | none => none
  | some idx0 =>
    match mergeLoop nowTs ⟨old, idx0, []⟩ new with
    | none => none
    | some st => some (st.merged, st.added)

/-- The number of records of `l` whose canonical source URL is `cu`. -/
def countCanon (l : List Item) (cu : List Char) : Nat :=
  (l.filter (fun r => canonKey r == some cu)).length

/-- A sample existing record (used by concrete witnesses): sparse early
fetch, no bonus figure yet. -/
def sampleA : Item :=
  ⟨"idA", "全国大学生数学建模竞赛", 0, "总奖金100万", "2025-11-30", "", "open",
   ["数学建模"], [], 0, [], false, "", "CUMCM", "https://example.com/contest/1",
   "", "2025-01-05T00:00:00Z"⟩

/-- A richer later fetch of the same page (tracking query noise on the URL,
default `bonusText`, an earlier `createdAt` on the new side). -/
def sampleB : Item :=
  { sampleA with
    bonusAmount := 50000
    bonusText := "-"
    sourceUrl := "http://example.com/contest/1/?utm_source=x"
    createdAt := "2025-01-01T00:00:00Z" }

def sampleCU : List Char := "https://example.com/contest/1".data

/-! ## Ranker (`classify.py`, `rank_item`)

The whitelist rule list is external configuration (`tools/whitelist.yaml`,
not under `src/`); following the spec's own design note it is passed in as
an explicit configuration object.  A rule's `re.search` test is modelled as
a Boolean predicate on the (lower-cased) text. -/

structure WlRule where
  test : String → Bool
  patText : String
  level : String

structure Whitelist where
  whitelist : List WlRule
  official_domains : List String

structure RankResult where
  qualityScore : Int
  rankReasons : List String
  isWhitelist : Bool
  level : String
deriving DecidableEq, Repr

/-- Days from 1970-01-01 of a proleptic-Gregorian date (Howard Hinnant's
`days_from_civil`; all intermediate values are arranged non-negative, so
the division convention is immaterial). -/
def dayNumber (d : Date) : Int :=
  let y : Int := (d.year : Int) - (if d.month ≤ 2 then 1 else 0)
  let era : Int := (if 0 ≤ y then y else y - 399) / 400
  let yoe : Int := y - era * 400
  let mp : Int := ((d.month : Int) + 9) % 12
  let doy : Int := (153 * mp + 2) / 5 + (d.day : Int) - 1
  let doe : Int := yoe * 365 + yoe / 4 - yoe / 100 + doy
  era * 146097 + doe - 719468

def nowSeconds (now : PyTime) : Int :=
  dayNumber now.date * 86400 + now.sec

/-- `(datetime(d, 00:00) - now).days`: Python `timedelta.days` floors, and
`Int` division by the positive constant 86400 floors as well. -/
def daysBetween (d : Date) (now : PyTime) : Int :=
  (dayNumber d * 86400 - nowSeconds now) / 86400

/-- Step 1 of `rank_item`: the first whitelist rule matching the text. -/
def wlHit (wl : Whitelist) (text : String) : Option WlRule :=
  wl.whitelist.find? (fun r => r.test text)

def wlScore (wl : Whitelist) (text : String) : Int :=
  match wlHit wl text with
  | none => 0
  | some r => if r.level = "National" then 300 else 200

def wlReasons (wl : Whitelist) (text : String) : List String :=
  match wlHit wl text with
  | none => []
  | some r =>
    if r.level = "National" then
      [String.mk ("白名单:".data ++ r.patText.data), "国家级"]
    else [String.mk ("白名单:".data ++ r.patText.data)]

/-- Step 2: lifecycle-urgency score. -/
def statusScore (status startDate : String) (now : PyTime) : Int :=
  if status = "ongoing" || status = "open" then 300
  else if status = "upcoming" then
    match parseDate startDate with
    | some S => if daysBetween S now ≤ 14 then 260 else 120
    | none => 120
  else if status = "unknown" then 50
  else if status = "ended" then -500
  else 0

def statusReasons (status startDate : String) (now : PyTime) : List String :=
  if status = "ongoing" || status = "open" then ["进行中/报名中"]
  else if status = "upcoming" then
    match parseDate startDate with
    | some S => if daysBetween S now ≤ 14 then ["即将开始"] else []
    | none => []
  else []

/-- Step 3: deadline-urgency score (only for `open`/`ongoing`). -/
def dlScore (status deadline : String) (now : PyTime) : Int :=
  if status = "open" || status = "ongoing" then
    match parseDate deadline with
    | some D =>
      let dl := daysBetween D now
      if 0 ≤ dl ∧ dl ≤ 3 then 120
      else if 0 ≤ dl ∧ dl ≤ 7 then 80
      else if 0 ≤ dl ∧ dl ≤ 30 then 30
      else 0
    | none => 0
  else 0

def dlReasons (status deadline : String) (now : PyTime) : List String :=
  if status = "open" || status = "ongoing" then
    match parseDate deadline with
    | some D =>
      let dl := daysBetween D now
      if 0 ≤ dl ∧ dl ≤ 3 then ["即将截止"]
      else if 0 ≤ dl ∧ dl ≤ 7 then ["一周内截止"]
      else []
    | none => []
  else []

def highAuthSources : List String :=
  ["CUMCM", "COMAP", "NSCSCC", "蓝桥杯", "挑战杯", "天池", "阿里云", "Kaggle",
   "DrivenData"]

/-- Step 4a: source-authority score. -/
def authScore (sourceName : String) : Int :=
  if highAuthSources.any (fun s => containsSub s.data sourceName.data) then 120
  else if sourceName = "赛氪" || sourceName = "52竞赛网" then 60
  else if sourceName = "Codeforces" || sourceName = "AtCoder" then 10
  else 0

def authReasons (sourceName : String) : List String :=
  if highAuthSources.any (fun s => containsSub s.data sourceName.data) then
    ["权威来源"]
  else []

/-- Step 4b: the official-domain loop (`break` on the first domain found in
the URL; skipped entirely when `权威来源` is already among the reasons). -/
def domOfficial (wl : Whitelist) (url : String) (reasonsSoFar : List String) :
    Int × List String :=
  match wl.official_domains.find? (fun d => containsSub d.data url.data) with
  | some _ =>
    if reasonsSoFar.contains "权威来源" then (0, []) else (20, ["官方来源"])
  | none => (0, [])

/-- Step 5: reward-size tier. -/
def bonusTier (b : Int) : Int :=
  if 100000 ≤ b then 80
  else if 50000 ≤ b then 60
  else if 10000 ≤ b then 40
  else if 5000 ≤ b then 20
  else 0

def bonusReasons (b : Int) : List String :=
  if 100000 ≤ b then ["超高奖金"]
  else if 50000 ≤ b then ["高奖金"]
  else []

/-- Step 6: recognized-category bonus. -/
def catScore (category : List String) : Int :=
  if category.any (fun c =>
      c = "编程" || c = "数学建模" || c = "AI数据" || c = "创新创业") then 10
  else 0

/-- `rank_item(item)` from `src/tools/classify.py` (`datetime.now()` and
the whitelist configuration made explicit parameters). -/
def rank_item (wl : Whitelist) (item : Item) (now : PyTime) : RankResult :=
  let text := String.mk (lowerList
    (item.title.data ++ ' ' :: item.summary.data ++ ' ' :: item.sourceName.data))
  let url := String.mk (lowerList item.sourceUrl.data)
  let rs := wlReasons wl text ++ statusReasons item.status item.startDate now ++
    dlReasons item.status item.deadline now ++ authReasons item.sourceName
  let dom := domOfficial wl url rs
  { qualityScore := wlScore wl text + statusScore item.status item.startDate now +
      dlScore item.status item.deadline now + authScore item.sourceName +
      dom.1 + bonusTier item.bonusAmount + catScore item.category
    rankReasons := (rs ++ dom.2 ++ bonusReasons item.bonusAmount).take 3
    isWhitelist := (wlHit wl text).isSome
    level := match wlHit wl text with | some r => r.level | none => "Unknown" }

/-! # Helper lemmas -/

theorem pyStrLt_irrefl (l : List Char) : pyStrLt l l = false := by
  induction l with
  | nil => rfl
  | cons c rest ih => simp [pyStrLt, ih, lt_irrefl]

theorem pyStrLt_append_same (p r1 r2 : List Char) :
    pyStrLt (p ++ r1) (p ++ r2) = pyStrLt r1 r2 := by
  induction p with
  | nil => rfl
  | cons c cs ih => simp [pyStrLt, ih, lt_irrefl]

theorem pyStrLt_append_of_lt {a1 a2 : List Char} (r1 r2 : List Char)
    (hlen : a1.length = a2.length) (h : pyStrLt a1 a2 = true) :
    pyStrLt (a1 ++ r1) (a2 ++ r2) = true := by
  induction a1 generalizing a2 with
  | nil =>
    cases a2 with
    | nil => simp [pyStrLt] at h
    | cons b bs => simp at hlen
  | cons c cs ih =>
    cases a2 with
    | nil => simp at hlen
    | cons b bs =>
      simp only [pyStrLt] at h
      simp only [List.cons_append, pyStrLt]
      by_cases h1 : c < b
      · simp [h1]
      · simp only [h1, if_false] at h ⊢
        by_cases h2 : b < c
        · simp [h2] at h
        · simp only [h2, if_false] at h ⊢
          exact ih (by simpa using hlen) h

theorem digitChar_toNat {n : Nat} (h : n ≤ 9) : (digitChar n).toNat = 48 + n := by
  interval_cases n <;> decide

theorem digitVal_digitChar {n : Nat} (h : n ≤ 9) : digitVal (digitChar n) = n := by
  interval_cases n <;> decide

theorem digitChar_isDigit {n : Nat} (h : n ≤ 9) : isPyDigit (digitChar n) = true := by
  interval_cases n <;> decide

theorem digitChar_ne_dash {n : Nat} (h : n ≤ 9) : digitChar n ≠ '-' := by
  interval_cases n <;> decide

theorem digitChar_lt {a b : Nat} (ha : a ≤ 9) (hb : b ≤ 9) :
    a < b → digitChar a < digitChar b := by
  interval_cases a <;> interval_cases b <;> decide

theorem pad2_no_dash (n : Nat) : ∀ c ∈ pad2 n, c ≠ '-' := by
  have h1 : n / 10 % 10 ≤ 9 := by omega
  have h2 : n % 10 ≤ 9 := by omega
  simp [pad2]
  exact ⟨digitChar_ne_dash h1, digitChar_ne_dash h2⟩

theorem pad4_no_dash (n : Nat) : ∀ c ∈ pad4 n, c ≠ '-' := by
  have h1 : n / 1000 % 10 ≤ 9 := by omega
  have h2 : n / 100 % 10 ≤ 9 := by omega
  have h3 : n / 10 % 10 ≤ 9 := by omega
  have h4 : n % 10 ≤ 9 := by omega
  simp [pad4]
  exact ⟨digitChar_ne_dash h1, digitChar_ne_dash h2, digitChar_ne_dash h3,
    digitChar_ne_dash h4⟩

theorem pad2_lt {a b : Nat} (hb : b ≤ 99) (h : a < b) :
    pyStrLt (pad2 a) (pad2 b) = true := by
  have ha : a ≤ 99 := by omega
  have e1 : a / 10 % 10 = a / 10 := by omega
  have e2 : b / 10 % 10 = b / 10 := by omega
  rcases Nat.lt_or_ge (a / 10) (b / 10) with hd | hd
  · have hc := digitChar_lt (by omega) (by omega) hd
    simp [pad2, pyStrLt, e1, e2, hc]
  · have he : a / 10 = b / 10 := by omega
    have hm : a % 10 < b % 10 := by omega
    have hc := digitChar_lt (by omega) (by omega) hm
    simp [pad2, pyStrLt, e1, e2, he, lt_irrefl, hc]

theorem pad4_eq_pad2_append (n : Nat) :
    pad4 n = pad2 (n / 100) ++ pad2 (n % 100) := by
  have e1 : n / 100 / 10 % 10 = n / 1000 % 10 := by omega
  have e2 : n / 100 % 10 = n / 100 % 10 := rfl
  have e3 : n % 100 / 10 % 10 = n / 10 % 10 := by omega
  have e4 : n % 100 % 10 = n % 10 := by omega
  simp [pad4, pad2, e1, e3, e4]

theorem pad4_lt {a b : Nat} (hb : b ≤ 9999) (h : a < b) :
    pyStrLt (pad4 a) (pad4 b) = true := by
  rw [pad4_eq_pad2_append a, pad4_eq_pad2_append b]
  rcases Nat.lt_or_ge (a / 100) (b / 100) with hd | hd
  · exact pyStrLt_append_of_lt _ _ (by simp [pad2]) (pad2_lt (by omega) hd)
  · have he : a / 100 = b / 100 := by omega
    rw [he, pyStrLt_append_same]
    exact pad2_lt (by omega) (by omega)

theorem fmtDate_lt {a b : Date} (hlt : dateLtB a b = true)
    (hay : a.year ≤ 9999) (hby : b.year ≤ 9999)
    (ham : a.month ≤ 99) (hbm : b.month ≤ 99)
    (had : a.day ≤ 99) (hbd : b.day ≤ 99) :
    pyStrLt (fmtDate a) (fmtDate b) = true := by
  obtain ⟨y1, m1, d1⟩ := a
  obtain ⟨y2, m2, d2⟩ := b
  simp only [dateLtB, Bool.or_eq_true, Bool.and_eq_true, decide_eq_true_eq] at hlt
  simp only at hay hby ham hbm had hbd
  unfold fmtDate
  simp only
  rcases Nat.lt_or_ge y1 y2 with hy | hy
  · exact pyStrLt_append_of_lt _ _ (by simp [pad4]) (pad4_lt hby hy)
  · have hye : y1 = y2 := by
      rcases hlt with h | ⟨h, _⟩
      · omega
      · omega
    subst hye
    rw [show pad4 y1 ++ '-' :: (pad2 m1 ++ '-' :: pad2 d1) =
          (pad4 y1 ++ ['-']) ++ (pad2 m1 ++ '-' :: pad2 d1) by simp,
        show pad4 y1 ++ '-' :: (pad2 m2 ++ '-' :: pad2 d2) =
          (pad4 y1 ++ ['-']) ++ (pad2 m2 ++ '-' :: pad2 d2) by simp,
        pyStrLt_append_same]
    rcases Nat.lt_or_ge m1 m2 with hm | hm
    · exact pyStrLt_append_of_lt _ _ (by simp [pad2]) (pad2_lt hbm hm)
    · have hme : m1 = m2 := by
        rcases hlt with h | ⟨_, h | ⟨h, _⟩⟩ <;> omega
      subst hme
      rw [show pad2 m1 ++ '-' :: pad2 d1 = (pad2 m1 ++ ['-']) ++ pad2 d1 by simp,
          show pad2 m1 ++ '-' :: pad2 d2 = (pad2 m1 ++ ['-']) ++ pad2 d2 by simp,
          pyStrLt_append_same]
      have hd : d1 < d2 := by
        rcases hlt with h | ⟨_, h | ⟨_, h⟩⟩ <;> omega
      exact pad2_lt hbd hd

theorem splitOnChar_nodash {sep : Char} {a : List Char} (h : ∀ c ∈ a, c ≠ sep) :
    splitOnChar sep a = [a] := by
  induction a with
  | nil => rfl
  | cons c cs ih =>
    have hc : c ≠ sep := h c (by simp)
    rw [splitOnChar, if_neg hc, ih (fun x hx => h x (by simp [hx]))]

theorem splitOnChar_append {sep : Char} {a : List Char} (rest : List Char)
    (h : ∀ c ∈ a, c ≠ sep) :
    splitOnChar sep (a ++ sep :: rest) = a :: splitOnChar sep rest := by
  induction a with
  | nil => simp [splitOnChar]
  | cons c cs ih =>
    have hc : c ≠ sep := h c (by simp)
    rw [List.cons_append, splitOnChar, if_neg hc,
      ih (fun x hx => h x (by simp [hx]))]

theorem yearField_pad4 {y : Nat} (h : y ≤ 9999) : yearField (pad4 y) = some y := by
  have h1 : y / 1000 % 10 ≤ 9 := by omega
  have h2 : y / 100 % 10 ≤ 9 := by omega
  have h3 : y / 10 % 10 ≤ 9 := by omega
  have h4 : y % 10 ≤ 9 := by omega
  simp [yearField, pad4, digitChar_isDigit, h1, h2, h3, h4,
    digitVal_digitChar]
  omega

theorem monthField_pad2 {m : Nat} (h1 : 1 ≤ m) (h2 : m ≤ 12) :
    monthField (pad2 m) = some m := by
  interval_cases m <;> decide

theorem dayField_pad2 {d : Nat} (h1 : 1 ≤ d) (h2 : d ≤ 31) :
    dayField (pad2 d) = some d := by
  interval_cases d <;> decide

theorem daysInMonth_pos (y m : Nat) : 1 ≤ daysInMonth y m ∧ daysInMonth y m ≤ 31 := by
  unfold daysInMonth
  split
  · split <;> omega
  · split <;> omega

theorem daysInMonth_dec (y : Nat) : daysInMonth y 12 = 31 := by
  simp [daysInMonth]

theorem parseDate_fmtDate {d : Date} (hv : validDate d = true)
    (hy : 1000 ≤ d.year) : parseDate (String.mk (fmtDate d)) = some d := by
  obtain ⟨y, m, dd⟩ := d
  simp only [validDate, Bool.and_eq_true, decide_eq_true_eq] at hv
  obtain ⟨⟨⟨⟨⟨hy1, hy2⟩, hm1⟩, hm2⟩, hd1⟩, hd2⟩ := hv
  simp only at hy
  have hdim := daysInMonth_pos y m
  unfold parseDate
  have hsplit : splitOnChar '-' (String.mk (fmtDate ⟨y, m, dd⟩)).data =
      [pad4 y, pad2 m, pad2 dd] := by
    show splitOnChar '-' (pad4 y ++ '-' :: (pad2 m ++ '-' :: pad2 dd)) = _
    rw [splitOnChar_append _ (pad4_no_dash y),
      splitOnChar_append _ (pad2_no_dash m),
      splitOnChar_nodash (pad2_no_dash dd)]
  rw [hsplit]
  simp only [yearField_pad4 hy2, monthField_pad2 hm1 hm2,
    dayField_pad2 hd1 (by omega : dd ≤ 31)]
  simp [hy1, hd2]

theorem validDate_mk {y m d : Nat} :
    validDate ⟨y, m, d⟩ = true ↔
      1 ≤ y ∧ y ≤ 9999 ∧ 1 ≤ m ∧ m ≤ 12 ∧ 1 ≤ d ∧ d ≤ daysInMonth y m := by
  simp [validDate, and_assoc]

theorem dateLtB_mk {y1 m1 d1 y2 m2 d2 : Nat} :
    dateLtB ⟨y1, m1, d1⟩ ⟨y2, m2, d2⟩ = true ↔
      y1 < y2 ∨ (y1 = y2 ∧ (m1 < m2 ∨ (m1 = m2 ∧ d1 < d2))) := by
  simp [dateLtB]

theorem prevDate_facts {d : Date} (hv : validDate d = true) (hy : 1001 ≤ d.year) :
    validDate (prevDate d) = true ∧ 1000 ≤ (prevDate d).year ∧
      dateLtB (prevDate d) d = true := by
  obtain ⟨y, m, dd⟩ := d
  rw [validDate_mk] at hv
  simp only at hy
  have hb := daysInMonth_pos y (m - 1)
  have hbd := daysInMonth_dec (y - 1)
  unfold prevDate
  dsimp only
  by_cases hdd : 1 < dd
  · rw [if_pos hdd]
    refine ⟨?_, ?_, ?_⟩
    · rw [validDate_mk]
      omega
    · show 1000 ≤ y
      omega
    · rw [dateLtB_mk]
      omega
  · rw [if_neg hdd]
    by_cases hmm : 1 < m
    · rw [if_pos hmm]
      refine ⟨?_, ?_, ?_⟩
      · rw [validDate_mk]
        omega
      · show 1000 ≤ y
        omega
      · rw [dateLtB_mk]
        omega
    · rw [if_neg hmm]
      refine ⟨?_, ?_, ?_⟩
      · rw [validDate_mk]
        rw [hbd]
        omega
      · show 1000 ≤ y - 1
        omega
      · rw [dateLtB_mk]
        omega

theorem validDate_bounds {d : Date} (h : validDate d = true) :
    d.year ≤ 9999 ∧ d.month ≤ 99 ∧ d.day ≤ 99 := by
  obtain ⟨y, m, dd⟩ := d
  rw [validDate_mk] at h
  have := daysInMonth_pos y m
  refine ⟨?_, ?_, ?_⟩
  · show y ≤ 9999
    omega
  · show m ≤ 99
    omega
  · show dd ≤ 99
    omega

theorem not_midnightLt_of_nowLe {D : Date} {now : PyTime}
    (h : nowLeMidnight now D = true) : midnightLtNow D now = false := by
  obtain ⟨⟨y, m, d⟩, s⟩ := now
  obtain ⟨y2, m2, d2⟩ := D
  simp only [nowLeMidnight, dateLtB, Bool.or_eq_true, Bool.and_eq_true,
    decide_eq_true_eq, Date.mk.injEq] at h
  by_cases hB : midnightLtNow ⟨y2, m2, d2⟩ ⟨⟨y, m, d⟩, s⟩ = true
  · exfalso
    simp only [midnightLtNow, dateLtB, Bool.or_eq_true, Bool.and_eq_true,
      decide_eq_true_eq, Date.mk.injEq] at hB
    omega
  · simpa using hB

/-! ## Merge-engine lemmas -/

theorem canonKey_mergeInto (e i : Item) (ts : String) :
    canonKey (mergeInto e i ts) = canonKey e := rfl

theorem updateAt_map_canonKey (l : List Item) (j : Nat) (f : Item → Item)
    (hf : ∀ e, canonKey (f e) = canonKey e) :
    (updateAt l j f).map canonKey = l.map canonKey := by
  induction l generalizing j with
  | nil => rfl
  | cons x xs ih =>
    cases j with
    | zero => simp [updateAt, hf]
    | succ n => simp [updateAt, ih]

theorem countCanon_append (l1 l2 : List Item) (cu : List Char) :
    countCanon (l1 ++ l2) cu = countCanon l1 cu + countCanon l2 cu := by
  simp [countCanon, List.filter_append]

theorem countCanon_eq_zero {l : List Item} {cu : List Char}
    (h : ∀ r ∈ l, canonKey r ≠ some cu) : countCanon l cu = 0 := by
  induction l with
  | nil => rfl
  | cons x xs ih =>
    have hx : ¬(canonKey x == some cu) = true := by simpa using h x (by simp)
    simp only [countCanon, List.filter_cons]
    rw [if_neg hx]
    exact ih (fun r hr => h r (by simp [hr]))

theorem countCanon_map_congr {l1 l2 : List Item} {cu : List Char}
    (h : l1.map canonKey = l2.map canonKey) : countCanon l1 cu = countCanon l2 cu := by
  induction l1 generalizing l2 with
  | nil =>
    cases l2 with
    | nil => rfl
    | cons y ys => simp at h
  | cons x xs ih =>
    cases l2 with
    | nil => simp at h
    | cons y ys =>
      simp only [List.map_cons, List.cons.injEq] at h
      obtain ⟨h1, h2⟩ := h
      simp only [countCanon, List.filter_cons, h1]
      by_cases hy : (canonKey y == some cu) = true
      · rw [if_pos hy, if_pos hy]
        simpa [countCanon] using ih h2
      · rw [if_neg hy, if_neg hy]
        exact ih h2

theorem countCanon_nodup_one {l : List Item} {cu : List Char} {r : Item}
    (hnd : (l.map canonKey).Nodup) (hr : r ∈ l) (hcr : canonKey r = some cu) :
    countCanon l cu = 1 := by
  induction l with
  | nil => simp at hr
  | cons x xs ih =>
    simp only [List.map_cons, List.nodup_cons] at hnd
    obtain ⟨hnotin, hnd2⟩ := hnd
    rcases List.mem_cons.mp hr with hrx | hr2
    · subst hrx
      have hz : countCanon xs cu = 0 := by
        apply countCanon_eq_zero
        intro r2 hr2 h2
        rw [hcr] at hnotin
        exact hnotin (List.mem_map.mpr ⟨r2, hr2, h2⟩)
      simp only [countCanon, List.filter_cons]
      rw [if_pos (by simp [hcr])]
      simpa [countCanon] using hz
    · have husome : some cu ∈ xs.map canonKey := List.mem_map.mpr ⟨r, hr2, hcr⟩
      have hx : ¬(canonKey x == some cu) = true := by
        simp only [beq_iff_eq]
        intro h2
        rw [h2] at hnotin
        exact hnotin husome
      simp only [countCanon, List.filter_cons]
      rw [if_neg hx]
      exact ih hnd2 hr2

theorem initIdx_isSome {old : List Item} (n : Nat)
    (hall : ∀ o ∈ old.map canonKey, o.isSome) : (initIdx old n).isSome := by
  induction old generalizing n with
  | nil => simp [initIdx]
  | cons it rest ih =>
    have h1 : (canonKey it).isSome := hall _ (by simp)
    obtain ⟨cu, hcu⟩ := Option.isSome_iff_exists.mp h1
    have h2 := ih (n + 1) (fun o ho => hall o (by simp [ho]))
    obtain ⟨l, hl⟩ := Option.isSome_iff_exists.mp h2
    simp [initIdx, hcu, hl]

theorem initIdx_mem {old : List Item} {n : Nat} {l : List (List Char × Nat)}
    (h : initIdx old n = some l) (cu : List Char) (j : Nat) :
    (cu, j) ∈ l ↔ ∃ k r, old[k]? = some r ∧ j = n + k ∧ canonKey r = some cu := by
  induction old generalizing n l with
  | nil =>
    simp only [initIdx, Option.some.injEq] at h
    subst h
    simp
  | cons it rest ih =>
    simp only [initIdx] at h
    cases hck : canonKey it with
    | none => rw [hck] at h; simp at h
    | some cu0 =>
      rw [hck] at h
      cases hrec : initIdx rest (n + 1) with
      | none => rw [hrec] at h; simp at h
      | some l2 =>
        rw [hrec] at h
        simp only [Option.some.injEq] at h
        subst h
        constructor
        · intro hmem
          rcases List.mem_append.mp hmem with hmem2 | hmem2
          · obtain ⟨k, r, hk, hj, hcr⟩ := (ih hrec).mp hmem2
            exact ⟨k + 1, r, by simpa using hk, by omega, hcr⟩
          · simp at hmem2
            obtain ⟨h1, h2⟩ := hmem2
            exact ⟨0, it, by simp, by omega, by rw [hck, h1]⟩
        · rintro ⟨k, r, hk, hj, hcr⟩
          cases k with
          | zero =>
            simp at hk
            subst hk
            rw [hck] at hcr
            simp at hcr
            subst hcr
            simp [hj]
          | succ k2 =>
            simp at hk
            refine List.mem_append.mpr (Or.inl ?_)
            exact (ih hrec).mpr ⟨k2, r, hk, by omega, hcr⟩

theorem lookupIdx_some {l : List (List Char × Nat)} {cu : List Char} {j : Nat}
    (h : lookupIdx l cu = some j) : (cu, j) ∈ l := by
  unfold lookupIdx at h
  cases hf : l.find? (fun p => p.1 == cu) with
  | none => rw [hf] at h; simp at h
  | some p =>
    rw [hf] at h
    simp only [Option.some.injEq] at h
    have hp := List.find?_some hf
    have hm := List.mem_of_find?_eq_some hf
    simp only [beq_iff_eq] at hp
    have hpe : p = (cu, j) := by
      obtain ⟨p1, p2⟩ := p
      simp only at hp h
      simp [hp, h]
    rwa [hpe] at hm

theorem lookupIdx_none {l : List (List Char × Nat)} {cu : List Char}
    (h : lookupIdx l cu = none) : ∀ j, (cu, j) ∉ l := by
  intro j hmem
  unfold lookupIdx at h
  cases hf : l.find? (fun p => p.1 == cu) with
  | some p => rw [hf] at h; simp at h
  | none =>
    have := List.find?_eq_none.mp hf _ hmem
    simp at this

/-- If the index lookup misses, no existing record has that canonical URL. -/
theorem count_zero_of_lookup_none {old : List Item} {idx0} {cu : List Char}
    (hinit : initIdx old 0 = some idx0) (hlk : lookupIdx idx0 cu = none) :
    countCanon old cu = 0 ∧ some cu ∉ old.map canonKey := by
  have hnm : some cu ∉ old.map canonKey := by
    intro hmem
    obtain ⟨r, hr, hcr⟩ := List.mem_map.mp hmem
    obtain ⟨k, hk⟩ := List.mem_iff_getElem?.mp hr
    have : (cu, 0 + k) ∈ idx0 := (initIdx_mem hinit cu (0 + k)).mpr ⟨k, r, hk, rfl, hcr⟩
    exact lookupIdx_none hlk _ this
  refine ⟨countCanon_eq_zero ?_, hnm⟩
  intro r hr hcr
  exact hnm (List.mem_map.mpr ⟨r, hr, hcr⟩)

/-- If the index lookup hits, exactly one existing record has that
canonical URL (given the no-duplicates invariant). -/
theorem count_one_of_lookup_some {old : List Item} {idx0} {cu : List Char} {j : Nat}
    (hinit : initIdx old 0 = some idx0)
    (hnd : (old.map canonKey).Nodup)
    (hlk : lookupIdx idx0 cu = some j) :
    countCanon old cu = 1 := by
  have hmem := lookupIdx_some hlk
  obtain ⟨k, r, hk, _, hcr⟩ := (initIdx_mem hinit cu j).mp hmem
  have hrmem : r ∈ old := List.mem_iff_getElem?.mpr ⟨k, hk⟩
  exact countCanon_nodup_one hnd hrmem hcr

/-- A single-item merge into a well-formed catalog succeeds and leaves
exactly one record with the item's canonical URL; well-formedness is
preserved. -/
theorem merge_single_count {old : List Item} {i : Item} {cu : List Char}
    (now : String)
    (hall : ∀ o ∈ old.map canonKey, o.isSome)
    (hnd : (old.map canonKey).Nodup)
    (hi : canonKey i = some cu) :
    ∃ m1 a1, merge_items old [i] now = some (m1, a1) ∧ countCanon m1 cu = 1 ∧
      (∀ o ∈ m1.map canonKey, o.isSome) ∧ (m1.map canonKey).Nodup := by
  obtain ⟨idx0, hinit⟩ := Option.isSome_iff_exists.mp (initIdx_isSome 0 hall)
  cases hlk : lookupIdx idx0 cu with
  | some j =>
    have hrun : merge_items old [i] now =
        some (updateAt old j (fun e => mergeInto e i now), []) := by
      simp only [merge_items, hinit, mergeLoop, mergeStep, hi, hlk]
    have hmapeq : (updateAt old j (fun e => mergeInto e i now)).map canonKey =
        old.map canonKey :=
      updateAt_map_canonKey old j _ (fun e => canonKey_mergeInto e i now)
    refine ⟨_, _, hrun, ?_, ?_, ?_⟩
    · rw [countCanon_map_congr hmapeq]
      exact count_one_of_lookup_some hinit hnd hlk
    · rw [hmapeq]; exact hall
    · rw [hmapeq]; exact hnd
  | none =>
    have hrun : merge_items old [i] now = some (old ++ [i], [i]) := by
      simp only [merge_items, hinit, mergeLoop, mergeStep, hi, hlk, List.nil_append]
    obtain ⟨hcount, hnm⟩ := count_zero_of_lookup_none hinit hlk
    refine ⟨_, _, hrun, ?_, ?_, ?_⟩
    · rw [countCanon_append, hcount]
      simp [countCanon, List.filter_cons, hi]
    · intro o ho
      rw [List.map_append] at ho
      rcases List.mem_append.mp ho with h2 | h2
      · exact hall o h2
      · simp [hi] at h2
        simp [h2]
    · rw [List.map_append, List.nodup_append]
      refine ⟨hnd, by simp, ?_⟩
      intro a ha
      simp [hi]
      intro heq
      rw [heq] at ha
      exact hnm ha

/-- Merging a list containing two items with the same canonical URL into a
well-formed catalog succeeds and leaves exactly one record with that URL. -/
theorem merge_pair_count {old : List Item} {i1 i2 : Item} {cu : List Char}
    (now : String)
    (hall : ∀ o ∈ old.map canonKey, o.isSome)
    (hnd : (old.map canonKey).Nodup)
    (hi1 : canonKey i1 = some cu) (hi2 : canonKey i2 = some cu) :
    ∃ m a, merge_items old [i1, i2] now = some (m, a) ∧ countCanon m cu = 1 := by
  obtain ⟨idx0, hinit⟩ := Option.isSome_iff_exists.mp (initIdx_isSome 0 hall)
  cases hlk : lookupIdx idx0 cu with
  | some j =>
    have hrun : merge_items old [i1, i2] now =
        some (updateAt (updateAt old j (fun e => mergeInto e i1 now)) j
          (fun e => mergeInto e i2 now), []) := by
      simp only [merge_items, hinit, mergeLoop, mergeStep, hi1, hi2, hlk]
    have hmapeq1 : (updateAt old j (fun e => mergeInto e i1 now)).map canonKey =
        old.map canonKey :=
      updateAt_map_canonKey old j _ (fun e => canonKey_mergeInto e i1 now)
    have hmapeq2 : (updateAt (updateAt old j (fun e => mergeInto e i1 now)) j
        (fun e => mergeInto e i2 now)).map canonKey =
        (updateAt old j (fun e => mergeInto e i1 now)).map canonKey :=
      updateAt_map_canonKey _ j _ (fun e => canonKey_mergeInto e i2 now)
    refine ⟨_, _, hrun, ?_⟩
    rw [countCanon_map_congr (hmapeq2.trans hmapeq1)]
    exact count_one_of_lookup_some hinit hnd hlk
  | none =>
    have hlk2 : lookupIdx ((cu, old.length) :: idx0) cu = some old.length := by
      simp [lookupIdx, List.find?]
    have hrun : merge_items old [i1, i2] now =
        some (updateAt (old ++ [i1]) old.length (fun e => mergeInto e i2 now),
          [i1]) := by
      simp only [merge_items, hinit, mergeLoop, mergeStep, hi1, hi2, hlk, hlk2,
        List.nil_append]
    obtain ⟨hcount, _⟩ := count_zero_of_lookup_none hinit hlk
    have hmapeq : (updateAt (old ++ [i1]) old.length
        (fun e => mergeInto e i2 now)).map canonKey =
        (old ++ [i1]).map canonKey :=
      updateAt_map_canonKey _ _ _ (fun e => canonKey_mergeInto e i2 now)
    refine ⟨_, _, hrun, ?_⟩
    rw [countCanon_map_congr hmapeq, countCanon_append, hcount]
    simp [countCanon, List.filter_cons, hi1]

/-- Merging a single new item over a singleton catalog with the same
canonical URL reduces to one `mergeInto` application. -/
theorem merge_pair_single {e i : Item} {cu : List Char} (now : String)
    (he : canonKey e = some cu) (hi : canonKey i = some cu) :
    merge_items [e] [i] now = some ([mergeInto e i now], []) := by
  have hlk : lookupIdx ([] ++ [(cu, 0)]) cu = some 0 := by
    simp [lookupIdx, List.find?]
  have hinit : initIdx [e] 0 = some ([] ++ [(cu, 0)]) := by
    simp [initIdx, he]
  simp only [merge_items, hinit, mergeLoop, mergeStep, hi, hlk, updateAt]

/-! ## Ranker lemmas -/

theorem bonusTier_mono {b1 b2 : Int} (h : b1 ≤ b2) : bonusTier b1 ≤ bonusTier b2 := by
  unfold bonusTier
  split_ifs <;> omega

theorem daysBetween_mono {D1 D2 : Date} (now : PyTime)
    (h : dayNumber D1 ≤ dayNumber D2) :
    daysBetween D1 now ≤ daysBetween D2 now := by
  unfold daysBetween
  apply Int.ediv_le_ediv (by norm_num)
  omega

theorem dlScore_mono {status d1 d2 : String} {D1 D2 : Date} {now : PyTime}
    (h1 : parseDate d1 = some D1) (h2 : parseDate d2 = some D2)
    (hle : dayNumber D1 ≤ dayNumber D2) (hfut : 0 ≤ daysBetween D1 now) :
    dlScore status d2 now ≤ dlScore status d1 now := by
  unfold dlScore
  by_cases hs : (decide (status = "open") || decide (status = "ongoing")) = true
  · rw [if_pos hs, if_pos hs, h1, h2]
    have hdb := daysBetween_mono now hle
    simp only
    split_ifs <;> omega
  · rw [if_neg hs, if_neg hs]

theorem dlReasons_not_auth (status deadline : String) (now : PyTime) :
    ("权威来源" : String) ∉ dlReasons status deadline now := by
  unfold dlReasons
  split
  · cases parseDate deadline with
    | none => simp
    | some D => simp only; split_ifs <;> simp
  · simp

theorem domOfficial_congr (wl : Whitelist) (url : String) {rs1 rs2 : List String}
    (h : ("权威来源" ∈ rs1) ↔ ("权威来源" ∈ rs2)) :
    domOfficial wl url rs1 = domOfficial wl url rs2 := by
  unfold domOfficial
  cases wl.official_domains.find? (fun d => containsSub d.data url.data) <;>
    simp [h]

theorem mem_append_congr {x y a b : List String}
    (hx : ("权威来源" : String) ∉ x) (hy : ("权威来源" : String) ∉ y) :
    (("权威来源" : String) ∈ a ++ x ++ b) ↔ (("权威来源" : String) ∈ a ++ y ++ b) := by
  simp only [List.mem_append]
  constructor
  · rintro ((h | h) | h)
    · exact Or.inl (Or.inl h)
    · exact absurd h hx
    · exact Or.inr h
  · rintro ((h | h) | h)
    · exact Or.inl (Or.inl h)
    · exact absurd h hy
    · exact Or.inr h

/-! ## URL-machinery lemmas: splitting -/

theorem splitFirst_eq {sep : Char} {s a b : List Char}
    (h : splitFirst sep s = some (a, b)) : s = a ++ sep :: b ∧ sep ∉ a := by
  induction s generalizing a b with
  | nil => simp [splitFirst] at h
  | cons c rest ih =>
    by_cases hc : c = sep
    · simp [splitFirst, hc] at h
      obtain ⟨ha, hb⟩ := h
      subst ha
      subst hb
      simp [hc]
    · simp only [splitFirst, if_neg hc] at h
      cases hrec : splitFirst sep rest with
      | none => rw [hrec] at h; simp at h
      | some p =>
        obtain ⟨a2, b2⟩ := p
        rw [hrec] at h
        simp at h
        obtain ⟨ha, hb⟩ := h
        obtain ⟨he, hn⟩ := ih hrec
        subst hb
        rw [← ha, he]
        simp [hc]
        exact ⟨fun h2 => hc h2.symm, hn⟩

theorem splitFirst_append {sep : Char} (a b : List Char) (ha : sep ∉ a) :
    splitFirst sep (a ++ sep :: b) = some (a, b) := by
  induction a with
  | nil => simp [splitFirst]
  | cons c rest ih =>
    have hc : c ≠ sep := fun h => ha (by simp [h])
    have hrec := ih (fun h => ha (by simp [h]))
    simp [splitFirst, hc, hrec]

theorem splitFirst_none {sep : Char} {s : List Char}
    (h : splitFirst sep s = none) : sep ∉ s := by
  induction s with
  | nil => simp
  | cons c rest ih =>
    by_cases hc : c = sep
    · simp [splitFirst, hc] at h
    · simp only [splitFirst, if_neg hc] at h
      cases hrec : splitFirst sep rest with
      | none =>
        simp only [List.mem_cons]
        rintro (h2 | h2)
        · exact hc h2.symm
        · exact ih hrec h2
      | some p => rw [hrec] at h; simp at h

theorem splitFirst_not_mem {sep : Char} (s : List Char) (h : sep ∉ s) :
    splitFirst sep s = none := by
  induction s with
  | nil => rfl
  | cons c rest ih =>
    have hc : c ≠ sep := fun h2 => h (by simp [h2])
    simp only [splitFirst, if_neg hc, ih (fun h2 => h (by simp [h2]))]

/-- Splitting a run: `takeWhile`/`dropWhile` across an append whose first
part satisfies the predicate and whose second part opens with a failing
character (or is empty). -/
theorem takeWhile_append_run {p : Char → Bool} {a b : List Char}
    (ha : ∀ c ∈ a, p c = true) (hb : ∀ c, b.head? = some c → p c = false) :
    (a ++ b).takeWhile p = a ∧ (a ++ b).dropWhile p = b := by
  induction a with
  | nil =>
    cases b with
    | nil => simp
    | cons c bs =>
      have := hb c (by simp)
      simp [List.takeWhile, List.dropWhile, this]
  | cons c rest ih =>
    have hc := ha c (by simp)
    have := ih (fun x hx => ha x (by simp [hx]))
    simp [List.takeWhile, List.dropWhile, hc, this.1, this.2]

theorem lstripC0_nostrip {s : List Char} {c : Char} (h : 32 < c.toNat) :
    lstripC0 (c :: s) = c :: s := by
  unfold lstripC0
  rw [List.dropWhile_cons_of_neg]
  simp
  omega

theorem removeUnsafe_no_op {s : List Char}
    (h : ∀ c ∈ s, c ≠ '\t' ∧ c ≠ '\r' ∧ c ≠ '\n') : removeUnsafe s = s := by
  unfold removeUnsafe
  rw [List.filter_eq_self]
  intro c hc
  obtain ⟨h1, h2, h3⟩ := h c hc
  simp [h1, h2, h3]

theorem mem_removeUnsafe {s : List Char} {c : Char} (h : c ∈ removeUnsafe s) :
    c ≠ '\t' ∧ c ≠ '\r' ∧ c ≠ '\n' := by
  unfold removeUnsafe at h
  have := List.of_mem_filter h
  simp at this
  exact ⟨this.1.1, this.1.2, this.2⟩

theorem rstripSlash_no_trailing (s : List Char) :
    ∀ c, (rstripSlash s).getLast? = some c → c ≠ '/' := by
  intro c hc
  unfold rstripSlash at hc
  rw [List.getLast?_reverse] at hc
  have hh : ((s.reverse.dropWhile (fun c => c = '/'))).head? = some c := by
    simpa using hc
  have := List.head?_dropWhile_not (fun c => decide (c = '/')) s.reverse
  rw [hh] at this
  simpa using this

theorem rstripSlash_subset {s : List Char} {c : Char}
    (h : c ∈ rstripSlash s) : c ∈ s := by
  unfold rstripSlash at h
  rw [List.mem_reverse] at h
  have hsub : List.Sublist (s.reverse.dropWhile (fun c => c = '/'))
      s.reverse := List.dropWhile_sublist _
  have := hsub.mem h
  rwa [List.mem_reverse] at this

/-! ## URL-machinery lemmas: UTF-8 round trip -/

theorem char_toNat_facts (c : Char) :
    c.toNat < 1114112 ∧ ¬(55296 ≤ c.toNat ∧ c.toNat < 57344) := by
  have h := c.valid
  rcases h with h | ⟨h1, h2⟩ <;> simp [Char.toNat] at * <;> omega

theorem utf8Bytes_lt (c : Char) : ∀ b ∈ utf8Bytes c, b < 256 := by
  obtain ⟨hv, _⟩ := char_toNat_facts c
  intro b hb
  simp only [utf8Bytes] at hb
  split_ifs at hb <;> simp at hb <;> omega

theorem utf8Decode_cons1 (b : Nat) (rest : List Nat) (h : b ≤ 127) :
    utf8Decode (b :: rest) = Char.ofNat b :: utf8Decode rest := by
  rw [utf8Decode.eq_def]
  simp [h]

theorem utf8Decode_cons2 (b b2 : Nat) (r2 : List Nat)
    (hb : 194 ≤ b) (hb' : b ≤ 223) (h2 : isCont b2 = true) :
    utf8Decode (b :: b2 :: r2) =
      Char.ofNat ((b - 192) * 64 + (b2 - 128)) :: utf8Decode r2 := by
  have e1 : ¬ b ≤ 127 := by omega
  rw [utf8Decode.eq_def]
  simp [e1, hb, hb', h2]

theorem utf8Decode_cons3 (b b2 b3 : Nat) (r3 : List Nat)
    (hb : 224 ≤ b) (hb' : b ≤ 239)
    (hlo : cont3lo b ≤ b2) (hhi : b2 ≤ cont3hi b) (h3 : isCont b3 = true) :
    utf8Decode (b :: b2 :: b3 :: r3) =
      Char.ofNat ((b - 224) * 4096 + (b2 - 128) * 64 + (b3 - 128)) ::
        utf8Decode r3 := by
  have e1 : ¬ b ≤ 127 := by omega
  have e2 : ¬ b ≤ 223 := by omega
  rw [utf8Decode.eq_def]
  simp [e1, e2, hb, hb', hlo, hhi, h3]

theorem utf8Decode_cons4 (b b2 b3 b4 : Nat) (r4 : List Nat)
    (hb : 240 ≤ b) (hb' : b ≤ 244)
    (hlo : cont4lo b ≤ b2) (hhi : b2 ≤ cont4hi b)
    (h3 : isCont b3 = true) (h4 : isCont b4 = true) :
    utf8Decode (b :: b2 :: b3 :: b4 :: r4) =
      Char.ofNat ((b - 240) * 262144 + (b2 - 128) * 4096 +
        (b3 - 128) * 64 + (b4 - 128)) :: utf8Decode r4 := by
  have e1 : ¬ b ≤ 127 := by omega
  have e2 : ¬ b ≤ 223 := by omega
  have e3 : ¬ b ≤ 239 := by omega
  rw [utf8Decode.eq_def]
  simp [e1, e2, e3, hb, hb', hlo, hhi, h3, h4]

/-- Decoding the encoding of one scalar value consumes exactly its bytes. -/
theorem utf8Decode_bytes (c : Char) (rest : List Nat) :
    utf8Decode (utf8Bytes c ++ rest) = c :: utf8Decode rest := by
  obtain ⟨hv, hsur⟩ := char_toNat_facts c
  unfold utf8Bytes
  by_cases h1 : c.toNat < 128
  · rw [if_pos h1, List.singleton_append,
      utf8Decode_cons1 _ _ (by omega), Char.ofNat_toNat]
  · rw [if_neg h1]
    by_cases h2 : c.toNat < 2048
    · rw [if_pos h2]
      simp only [List.cons_append, List.nil_append]
      rw [utf8Decode_cons2 _ _ _ (by omega) (by omega) (by simp [isCont]; omega)]
      have e4 : (192 + c.toNat / 64 - 192) * 64 + (128 + c.toNat % 64 - 128)
          = c.toNat := by omega
      rw [e4, Char.ofNat_toNat]
    · rw [if_neg h2]
      by_cases h3 : c.toNat < 65536
      · rw [if_pos h3]
        simp only [List.cons_append, List.nil_append]
        have hlo : cont3lo (224 + c.toNat / 4096) ≤ 128 + c.toNat / 64 % 64 := by
          unfold cont3lo
          by_cases hz : 224 + c.toNat / 4096 = 224
          · simp only [if_pos hz]; omega
          · simp only [if_neg hz]; omega
        have hhi : 128 + c.toNat / 64 % 64 ≤ cont3hi (224 + c.toNat / 4096) := by
          unfold cont3hi
          by_cases ht : 224 + c.toNat / 4096 = 237
          · simp only [if_pos ht]; omega
          · simp only [if_neg ht]; omega
        rw [utf8Decode_cons3 _ _ _ _ (by omega) (by omega) hlo hhi
          (by simp [isCont]; omega)]
        have e4 : (224 + c.toNat / 4096 - 224) * 4096 +
            (128 + c.toNat / 64 % 64 - 128) * 64 +
            (128 + c.toNat % 64 - 128) = c.toNat := by omega
        rw [e4, Char.ofNat_toNat]
      · rw [if_neg h3]
        have hk : c.toNat / 262144 ≤ 4 := by omega
        have hlo : cont4lo (240 + c.toNat / 262144) ≤
            128 + c.toNat / 4096 % 64 := by
          unfold cont4lo
          by_cases hz : 240 + c.toNat / 262144 = 240
          · simp only [if_pos hz]; omega
          · simp only [if_neg hz]; omega
        have hhi : 128 + c.toNat / 4096 % 64 ≤
            cont4hi (240 + c.toNat / 262144) := by
          unfold cont4hi
          by_cases hf : 240 + c.toNat / 262144 = 244
          · simp only [if_pos hf]; omega
          · simp only [if_neg hf]; omega
        simp only [List.cons_append, List.nil_append]
        rw [utf8Decode_cons4 _ _ _ _ _ (by omega) (by omega) hlo hhi
          (by simp [isCont]; omega) (by simp [isCont]; omega)]
        have e4 : (240 + c.toNat / 262144 - 240) * 262144 +
            (128 + c.toNat / 4096 % 64 - 128) * 4096 +
            (128 + c.toNat / 64 % 64 - 128) * 64 +
            (128 + c.toNat % 64 - 128) = c.toNat := by omega
        rw [e4, Char.ofNat_toNat]

theorem utf8Encode_cons (c : Char) (s : List Char) :
    utf8Encode (c :: s) = utf8Bytes c ++ utf8Encode s := rfl

theorem utf8_round_trip (s : List Char) : utf8Decode (utf8Encode s) = s := by
  induction s with
  | nil => rfl
  | cons c rest ih =>
    rw [utf8Encode_cons, utf8Decode_bytes, ih]

/-! ## URL-machinery lemmas: quoting round trip -/

theorem hexDigitUpper_safe :
    ∀ n < 16, isAlwaysSafe (hexDigitUpper n) = true ∧
      hexDigitUpper n ≠ '+' ∧ hexDigVal (hexDigitUpper n) = some n := by
  decide

theorem pctDecode_cons {c : Char} (r : List Char) (h : c ≠ '%') :
    pctDecodeBytes (c :: r) = utf8Bytes c ++ pctDecodeBytes r := by
  rw [pctDecodeBytes.eq_def]
  split
  · simp_all
  · rename_i heq
    rw [List.cons_eq_cons] at heq
    exact absurd heq.1 h
  · rename_i heq
    rw [List.cons_eq_cons] at heq
    exact absurd heq.1 h
  · rename_i heq
    rw [List.cons_eq_cons] at heq
    rw [heq.1, heq.2]

theorem pctDecode_pctByte (b : Nat) (hb : b < 256) (r : List Char) :
    pctDecodeBytes ((pctByte b).map (fun c => if c = '+' then ' ' else c) ++ r)
      = b :: pctDecodeBytes r := by
  obtain ⟨_, hp1, hv1⟩ := hexDigitUpper_safe (b / 16) (by omega)
  obtain ⟨_, hp2, hv2⟩ := hexDigitUpper_safe (b % 16) (by omega)
  have e : (pctByte b).map (fun c => if c = '+' then ' ' else c) ++ r =
      '%' :: hexDigitUpper (b / 16) :: hexDigitUpper (b % 16) :: r := by
    simp [pctByte, hp1, hp2]
  rw [e, pctDecodeBytes, hv1, hv2]
  show (b / 16 * 16 + b % 16) :: pctDecodeBytes r = b :: pctDecodeBytes r
  congr 1
  omega

theorem pctDecode_byteFold (bs : List Nat) (h : ∀ b ∈ bs, b < 256)
    (r : List Char) :
    pctDecodeBytes
      (((bs.foldr (fun b acc => pctByte b ++ acc) []).map
        (fun c => if c = '+' then ' ' else c)) ++ r) =
      bs ++ pctDecodeBytes r := by
  induction bs with
  | nil => simp
  | cons b bs ih =>
    rw [List.foldr_cons, List.map_append, List.append_assoc,
      pctDecode_pctByte b (h b (by simp)) _,
      ih (fun x hx => h x (by simp [hx])), List.cons_append]

theorem quotePlusChar_decode (c : Char) (r : List Char) :
    pctDecodeBytes ((quotePlusChar c).map (fun x => if x = '+' then ' ' else x)
      ++ r) = utf8Bytes c ++ pctDecodeBytes r := by
  unfold quotePlusChar
  by_cases hs : isAlwaysSafe c = true
  · rw [if_pos hs]
    have hcp : c ≠ '+' := by
      intro h
      rw [h] at hs
      simp [isAlwaysSafe] at hs
    have hpc : c ≠ '%' := by
      intro h
      rw [h] at hs
      simp [isAlwaysSafe] at hs
    simp only [List.map_cons, List.map_nil, if_neg hcp, List.cons_append,
      List.nil_append]
    exact pctDecode_cons r hpc
  · rw [if_neg hs]
    by_cases hsp : c = ' '
    · rw [if_pos hsp, hsp]
      show pctDecodeBytes (' ' :: r) = utf8Bytes ' ' ++ pctDecodeBytes r
      rw [pctDecode_cons r (by decide)]
    · rw [if_neg hsp]
      exact pctDecode_byteFold (utf8Bytes c) (utf8Bytes_lt c) r

theorem quotePlus_cons (c : Char) (s : List Char) :
    quotePlus (c :: s) = quotePlusChar c ++ quotePlus s := rfl

theorem unquotePlus_quotePlus (s : List Char) :
    unquotePlus (quotePlus s) = s := by
  have key : ∀ t : List Char,
      pctDecodeBytes ((quotePlus t).map (fun x => if x = '+' then ' ' else x))
        = utf8Encode t := by
    intro t
    induction t with
    | nil => rfl
    | cons c rest ih =>
      rw [quotePlus_cons, List.map_append]
      rw [quotePlusChar_decode c _, ih]
      rfl
  unfold unquotePlus pyUnquote
  rw [key, utf8_round_trip]

theorem byteFold_chars (bs : List Nat) (h : ∀ b ∈ bs, b < 256) :
    ∀ c ∈ bs.foldr (fun b acc => pctByte b ++ acc) [],
      (isAlwaysSafe c || c = '+' || c = '%') = true := by
  induction bs with
  | nil => simp
  | cons b bs ihb =>
    intro c hc
    rw [List.foldr_cons] at hc
    rcases List.mem_append.mp hc with h2 | h2
    · have hb256 := h b (by simp)
      unfold pctByte at h2
      simp only [List.mem_cons, List.not_mem_nil, or_false] at h2
      rcases h2 with h2 | h2 | h2
      · subst h2; decide
      · obtain ⟨hsafe, _, _⟩ := hexDigitUpper_safe (b / 16) (by omega)
        subst h2; simp [hsafe]
      · obtain ⟨hsafe, _, _⟩ := hexDigitUpper_safe (b % 16) (by omega)
        subst h2; simp [hsafe]
    · exact ihb (fun y hy => h y (by simp [hy])) c h2

/-- Character classification of `quote_plus` output with `safe=''`. -/
theorem quotePlus_chars (s : List Char) :
    ∀ c ∈ quotePlus s, (isAlwaysSafe c || c = '+' || c = '%') = true := by
  induction s with
  | nil => simp [quotePlus]
  | cons x rest ih =>
    intro c hc
    rw [quotePlus_cons] at hc
    rcases List.mem_append.mp hc with h | h
    · unfold quotePlusChar at h
      by_cases hs : isAlwaysSafe x = true
      · rw [if_pos hs] at h
        simp at h
        subst h
        simp [hs]
      · rw [if_neg hs] at h
        by_cases hsp : x = ' '
        · rw [if_pos hsp] at h
          simp at h
          subst h
          decide
        · rw [if_neg hsp] at h
          exact byteFold_chars (utf8Bytes x) (utf8Bytes_lt x) c h
    · exact ih c h

theorem splitFirst_quote_eq (k v : List Char) :
    splitFirst '=' (quotePlus k ++ '=' :: quotePlus v) =
      some (quotePlus k, quotePlus v) := by
  apply splitFirst_append
  intro h
  have := quotePlus_chars k '=' h
  simp [isAlwaysSafe] at this

theorem joinAmp_cons2 (x y : List Char) (ys : List (List Char)) :
    joinAmp (x :: y :: ys) = x ++ '&' :: joinAmp (y :: ys) := rfl

theorem joinAmp_ne_nil {l : List (List Char)} (h : l ≠ [])
    (h2 : ∀ x ∈ l, x ≠ []) : joinAmp l ≠ [] := by
  cases l with
  | nil => exact absurd rfl h
  | cons x xs =>
    cases xs with
    | nil =>
      rw [joinAmp]
      exact h2 x (by simp)
    | cons y ys =>
      rw [joinAmp_cons2]
      intro hh
      rcases List.append_eq_nil.mp hh with ⟨_, hc⟩
      simp at hc

theorem splitOnChar_joinAmp {l : List (List Char)} (hne : l ≠ [])
    (h : ∀ x ∈ l, '&' ∉ x) : splitOnChar '&' (joinAmp l) = l := by
  induction l with
  | nil => exact absurd rfl hne
  | cons x xs ih =>
    cases xs with
    | nil =>
      rw [joinAmp]
      exact splitOnChar_nodash
        (fun c hc heq => h x (by simp) (by rw [← heq]; exact hc))
    | cons y ys =>
      rw [joinAmp_cons2, splitOnChar_append _
        (fun c hc heq => h x (by simp) (by rw [← heq]; exact hc))]
      rw [ih (by simp) (fun z hz => h z (by simp [hz]))]

/-- `parse_qsl` inverts `urlencode` on decoded pairs. -/
theorem parse_qsl_urlencode (q : List (List Char × List Char)) :
    parse_qsl (urlencodePy q) = q := by
  cases hq : q with
  | nil => rfl
  | cons kv rest =>
    have hsegs : ∀ x ∈ (kv :: rest).map
        (fun kv => quotePlus kv.1 ++ '=' :: quotePlus kv.2), x ≠ [] := by
      intro x hx
      rcases List.mem_map.mp hx with ⟨p, _, hp⟩
      rw [← hp]
      intro hc
      rcases List.append_eq_nil.mp hc with ⟨_, hc2⟩
      simp at hc2
    have hamp : ∀ x ∈ (kv :: rest).map
        (fun kv => quotePlus kv.1 ++ '=' :: quotePlus kv.2), '&' ∉ x := by
      intro x hx hin
      rcases List.mem_map.mp hx with ⟨p, _, hp⟩
      rw [← hp] at hin
      rcases List.mem_append.mp hin with h | h
      · have := quotePlus_chars p.1 '&' h
        simp [isAlwaysSafe] at this
      · rcases List.mem_cons.mp h with h | h
        · exact absurd h (by decide)
        · have := quotePlus_chars p.2 '&' h
          simp [isAlwaysSafe] at this
    have hne : joinAmp ((kv :: rest).map
        (fun kv => quotePlus kv.1 ++ '=' :: quotePlus kv.2)) ≠ [] :=
      joinAmp_ne_nil (by simp) hsegs
    unfold parse_qsl urlencodePy
    rw [if_neg (by simpa using hne)]
    rw [splitOnChar_joinAmp (by simp) hamp]
    have main : ∀ l : List (List Char × List Char),
        (l.map (fun kv => quotePlus kv.1 ++ '=' :: quotePlus kv.2)).foldr
          (fun seg acc =>
            if seg.isEmpty then acc
            else
              match splitFirst '=' seg with
              | some (n, v) => (unquotePlus n, unquotePlus v) :: acc
              | none => (unquotePlus seg, []) :: acc) [] = l := by
      intro l
      induction l with
      | nil => rfl
      | cons p ps ihp =>
        rw [List.map_cons, List.foldr_cons, ihp]
        rw [if_neg (by simp), splitFirst_quote_eq]
        show (unquotePlus (quotePlus p.1), unquotePlus (quotePlus p.2)) :: ps
          = p :: ps
        rw [unquotePlus_quotePlus, unquotePlus_quotePlus]
    exact main (kv :: rest)

/-! ## URL-machinery lemmas: parse dissection -/

theorem filter_idem {α : Type} (f : α → Bool) (l : List α) :
    (l.filter f).filter f = l.filter f := by
  induction l with
  | nil => rfl
  | cons x xs ih =>
    by_cases h : f x <;> simp [List.filter_cons, h, ih]

theorem splitAtFirstOpt_facts {sep : Char} {s a b : List Char}
    (h : splitAtFirstOpt sep s = (a, b)) :
    sep ∉ a ∧ (∀ c ∈ a, c ∈ s) ∧ (∀ c ∈ b, c ∈ s) := by
  unfold splitAtFirstOpt at h
  cases hsf : splitFirst sep s with
  | none =>
    rw [hsf] at h
    obtain ⟨rfl, rfl⟩ := Prod.mk.injEq .. ▸ h
    refine ⟨splitFirst_none hsf, fun c hc => hc, fun c hc => by simp at hc⟩
  | some p =>
    obtain ⟨x, y⟩ := p
    rw [hsf] at h
    obtain ⟨he, hn⟩ := splitFirst_eq hsf
    cases h
    exact ⟨hn, fun c hc => by rw [he]; simp [hc],
      fun c hc => by rw [he]; simp [hc]⟩

theorem splitScheme_sub {s sch rest : List Char}
    (h : splitScheme s = (sch, rest)) : ∀ c ∈ rest, c ∈ s := by
  unfold splitScheme at h
  cases hsf : splitFirst ':' s with
  | none =>
    simp only [hsf] at h
    injection h with h1 h2
    subst h2
    exact fun c hc => hc
  | some p =>
    obtain ⟨x, y⟩ := p
    simp only [hsf] at h
    obtain ⟨he, _⟩ := splitFirst_eq hsf
    split at h
    · injection h with h1 h2
      subst h2
      exact fun c hc => by rw [he]; simp [hc]
    · injection h with h1 h2
      subst h2
      exact fun c hc => hc

theorem splitParams_sub {url a b : List Char}
    (h : splitParams url = (a, b)) : ∀ c ∈ a, c ∈ url := by
  simp only [splitParams] at h
  split at h
  · cases hsf : splitFirst ';'
        ((url.reverse.takeWhile (fun c => c ≠ '/')).reverse) with
    | none =>
      simp only [hsf] at h
      injection h with h1 h2
      subst h1
      exact fun c hc => hc
    | some p =>
      obtain ⟨x, y⟩ := p
      simp only [hsf] at h
      injection h with h1 h2
      subst h1
      intro c hc
      rcases List.mem_append.mp hc with h2 | h2
      · exact List.mem_of_mem_take h2
      · obtain ⟨he, _⟩ := splitFirst_eq hsf
        have : c ∈ (url.reverse.takeWhile (fun c => c ≠ '/')).reverse := by
          rw [he]; simp [h2]
        rw [List.mem_reverse] at this
        have hsub : List.Sublist (url.reverse.takeWhile (fun c => c ≠ '/'))
            url.reverse := List.takeWhile_sublist _
        have := hsub.mem this
        rwa [List.mem_reverse] at this
  · exact (splitAtFirstOpt_facts h).2.1

/-- What the original successful parse guarantees about netloc and path. -/
theorem urlparseE_facts {url : List Char} {p : UrlParts}
    (h : urlparseE url = some p) :
    (∀ c ∈ p.netloc, isNetlocDelim c = false ∧
      c ≠ '\t' ∧ c ≠ '\r' ∧ c ≠ '\n') ∧
    netlocBracketsOk p.netloc = true ∧
    (∀ c ∈ p.path, c ≠ '#' ∧ c ≠ '?' ∧ c ≠ '\t' ∧ c ≠ '\r' ∧ c ≠ '\n') := by
  unfold urlparseE at h
  cases hss : splitScheme (removeUnsafe (lstripC0 url)) with
  | mk scheme rest =>
  simp only [hss] at h
  have hrest : ∀ c ∈ rest, c ∈ removeUnsafe (lstripC0 url) :=
    splitScheme_sub hss
  by_cases htake : rest.take 2 = ['/', '/']
  · rw [if_pos htake] at h
    by_cases hbr :
        netlocBracketsOk ((rest.drop 2).takeWhile (fun c => !isNetlocDelim c))
          = true
    · simp only [splitNetloc, hbr, if_true] at h
      cases hbf : splitAtFirstOpt '#'
          ((rest.drop 2).dropWhile (fun c => !isNetlocDelim c)) with
      | mk bf1 bf2 =>
      simp only [hbf] at h
      cases hpq : splitAtFirstOpt '?' bf1 with
      | mk pq1 pq2 =>
      simp only [hpq] at h
      obtain ⟨hbfn, hbfs, _⟩ := splitAtFirstOpt_facts hbf
      obtain ⟨hpqn, hpqs, _⟩ := splitAtFirstOpt_facts hpq
      have hpath : ∀ c ∈ pq1,
          c ≠ '#' ∧ c ≠ '?' ∧ c ≠ '\t' ∧ c ≠ '\r' ∧ c ≠ '\n' := by
        intro c hc
        have hbf1 : c ∈ bf1 := hpqs c hc
        have hu : c ∈ removeUnsafe (lstripC0 url) := by
          apply hrest
          apply List.mem_of_mem_drop
          exact (List.dropWhile_sublist _).mem (hbfs c hbf1)
        obtain ⟨h1, h2, h3⟩ := mem_removeUnsafe hu
        exact ⟨fun he => hbfn (he ▸ hbf1), fun he => hpqn (he ▸ hc), h1, h2, h3⟩
      have hnet : ∀ c ∈ (rest.drop 2).takeWhile (fun c => !isNetlocDelim c),
          isNetlocDelim c = false ∧ c ≠ '\t' ∧ c ≠ '\r' ∧ c ≠ '\n' := by
        intro c hc
        have hd := List.mem_takeWhile_imp hc
        have hu : c ∈ removeUnsafe (lstripC0 url) := by
          apply hrest
          apply List.mem_of_mem_drop
          exact (List.takeWhile_sublist _).mem hc
        obtain ⟨h1, h2, h3⟩ := mem_removeUnsafe hu
        exact ⟨by simpa using hd, h1, h2, h3⟩
      split at h <;> cases h
      · cases hsp : splitParams pq1 with
        | mk sp1 sp2 =>
        refine ⟨hnet, hbr, ?_⟩
        intro c hc
        exact hpath c (splitParams_sub hsp c hc)
      · exact ⟨hnet, hbr, hpath⟩
    · have hcond : ¬ (netlocBracketsOk (splitNetloc (rest.drop 2)).1 = true) := by
        simpa [splitNetloc] using hbr
      rw [if_neg hcond] at h
      simp at h
  · rw [if_neg htake] at h
    cases hbf : splitAtFirstOpt '#' rest with
    | mk bf1 bf2 =>
    simp only [hbf] at h
    cases hpq : splitAtFirstOpt '?' bf1 with
    | mk pq1 pq2 =>
    simp only [hpq] at h
    obtain ⟨hbfn, hbfs, _⟩ := splitAtFirstOpt_facts hbf
    obtain ⟨hpqn, hpqs, _⟩ := splitAtFirstOpt_facts hpq
    have hpath : ∀ c ∈ pq1,
        c ≠ '#' ∧ c ≠ '?' ∧ c ≠ '\t' ∧ c ≠ '\r' ∧ c ≠ '\n' := by
      intro c hc
      have hbf1 : c ∈ bf1 := hpqs c hc
      obtain ⟨h1, h2, h3⟩ := mem_removeUnsafe (hrest c (hbfs c hbf1))
      exact ⟨fun he => hbfn (he ▸ hbf1), fun he => hpqn (he ▸ hc), h1, h2, h3⟩
    split at h <;> cases h
    · cases hsp : splitParams pq1 with
      | mk sp1 sp2 =>
      refine ⟨fun c hc => absurd hc (List.not_mem_nil c),
        (by decide : netlocBracketsOk ([] : List Char) = true), ?_⟩
      intro c hc
      exact hpath c (splitParams_sub hsp c hc)
    · exact ⟨fun c hc => absurd hc (List.not_mem_nil c),
        (by decide : netlocBracketsOk ([] : List Char) = true), hpath⟩

/-! ## URL-machinery lemmas: reparsing a canonical URL -/

theorem splitAtFirstOpt_not_mem {sep : Char} {s : List Char} (h : sep ∉ s) :
    splitAtFirstOpt sep s = (s, []) := by
  unfold splitAtFirstOpt
  rw [splitFirst_not_mem s h]

theorem splitAtFirstOpt_append {sep : Char} (a b : List Char) (ha : sep ∉ a) :
    splitAtFirstOpt sep (a ++ sep :: b) = (a, b) := by
  unfold splitAtFirstOpt
  rw [splitFirst_append a b ha]

theorem splitNetloc_append {n b : List Char}
    (hn : ∀ c ∈ n, isNetlocDelim c = false)
    (hb : ∀ c, b.head? = some c → isNetlocDelim c = true) :
    splitNetloc (n ++ b) = (n, b) := by
  have hrun := @takeWhile_append_run (fun c => !isNetlocDelim c) n b
    (fun c hc => by simp [hn c hc]) (fun c hc => by simp [hb c hc])
  unfold splitNetloc
  rw [hrun.1, hrun.2]

theorem rstripSlash_no_op {s : List Char}
    (h : ∀ c, s.getLast? = some c → c ≠ '/') : rstripSlash s = s := by
  unfold rstripSlash
  cases hrev : s.reverse with
  | nil =>
    have : s = [] := by
      have := congrArg List.reverse hrev
      simpa using this
    rw [this]
    rfl
  | cons c t =>
    have hc : s.getLast? = some c := by
      rw [← List.head?_reverse, hrev]
      rfl
    rw [List.dropWhile_cons_of_neg (by simpa using h c hc), ← hrev,
      List.reverse_reverse]

theorem splitScheme_https (rest : List Char) :
    splitScheme ("https".data ++ ':' :: rest) = ("https".data, rest) := by
  unfold splitScheme
  rw [splitFirst_append "https".data rest (by decide)]
  show (if true = true then (lowerList "https".data, rest)
    else ([], "https".data ++ ':' :: rest)) = ("https".data, rest)
  rw [if_pos rfl]
  rfl

theorem mem_joinAmp {l : List (List Char)} {c : Char} (h : c ∈ joinAmp l) :
    c = '&' ∨ ∃ x ∈ l, c ∈ x := by
  induction l with
  | nil => simp [joinAmp] at h
  | cons x xs ih =>
    cases xs with
    | nil =>
      rw [joinAmp] at h
      exact Or.inr ⟨x, by simp, h⟩
    | cons y ys =>
      rw [joinAmp_cons2] at h
      rcases List.mem_append.mp h with h2 | h2
      · exact Or.inr ⟨x, by simp, h2⟩
      · rcases List.mem_cons.mp h2 with h3 | h3
        · exact Or.inl h3
        · rcases ih h3 with h4 | ⟨z, hz, hcz⟩
          · exact Or.inl h4
          · exact Or.inr ⟨z, by simp [hz], hcz⟩

theorem urlencode_chars (q : List (List Char × List Char)) :
    ∀ c ∈ urlencodePy q,
      (isAlwaysSafe c || c = '+' || c = '%' || c = '=' || c = '&') = true := by
  intro c hc
  unfold urlencodePy at hc
  rcases mem_joinAmp hc with h | ⟨x, hx, hcx⟩
  · simp [h]
  · rcases List.mem_map.mp hx with ⟨kv, _, hkv⟩
    rw [← hkv] at hcx
    rcases List.mem_append.mp hcx with h2 | h2
    · have := quotePlus_chars kv.1 c h2
      simp only [Bool.or_eq_true] at this ⊢
      tauto
    · rcases List.mem_cons.mp h2 with h3 | h3
      · simp [h3]
      · have := quotePlus_chars kv.2 c h3
        simp only [Bool.or_eq_true] at this ⊢
        tauto

theorem qchar_facts {c : Char}
    (h : (isAlwaysSafe c || c = '+' || c = '%' || c = '=' || c = '&') = true) :
    isNetlocDelim c = false ∧ c ≠ '#' ∧ c ≠ '?' ∧ c ≠ '\t' ∧ c ≠ '\r' ∧
      c ≠ '\n' ∧ c ≠ ';' := by
  have hne : ∀ x : Char,
      (isAlwaysSafe x || x = '+' || x = '%' || x = '=' || x = '&') = false →
      c ≠ x := by
    intro x hx he
    rw [he, hx] at h
    exact Bool.false_ne_true h
  have h1 := hne '/' (by decide)
  have h2 := hne '?' (by decide)
  have h3 := hne '#' (by decide)
  exact ⟨by simp [isNetlocDelim, h1, h2, h3], h3, h2,
    hne '\t' (by decide), hne '\r' (by decide), hne '\n' (by decide),
    hne ';' (by decide)⟩

/-- Parsing a URL of the exact shape produced by `canonicalize_url`. -/
theorem urlparse_https_form (n pth q' : List Char)
    (hn : ∀ c ∈ n, isNetlocDelim c = false ∧ c ≠ '\t' ∧ c ≠ '\r' ∧ c ≠ '\n')
    (hbr : netlocBracketsOk n = true)
    (hpth : ∀ c ∈ pth, c ≠ '#' ∧ c ≠ '?' ∧ c ≠ '\t' ∧ c ≠ '\r' ∧ c ≠ '\n')
    (hhead : pth = [] ∨ pth.head? = some '/')
    (hsemi : ';' ∉ pth)
    (hq : ∀ c ∈ q',
      (isAlwaysSafe c || c = '+' || c = '%' || c = '=' || c = '&') = true) :
    urlparseE ("https".data ++ ':' :: (('/' :: '/' :: n) ++ pth ++
        (if q'.isEmpty then [] else '?' :: q'))) =
      some ⟨"https".data, n, pth, [], q', []⟩ := by
  set optq := (if q'.isEmpty then [] else '?' :: q') with hoptq
  have hoptqmem : ∀ c ∈ optq, c = '?' ∨ c ∈ q' := by
    intro c hc
    rw [hoptq] at hc
    split at hc
    · simp at hc
    · rcases List.mem_cons.mp hc with h | h
      · exact Or.inl h
      · exact Or.inr h
  have e0 : lstripC0 ("https".data ++ ':' :: (('/' :: '/' :: n) ++ pth ++ optq)) =
      "https".data ++ ':' :: (('/' :: '/' :: n) ++ pth ++ optq) := by
    show lstripC0 ('h' :: ('t' :: 't' :: 'p' :: 's' :: ':' :: (('/' :: '/' :: n) ++ pth ++ optq)))
      = _
    rw [lstripC0_nostrip (by decide)]
    rfl
  have hrm : removeUnsafe ("https".data ++ ':' ::
        (('/' :: '/' :: n) ++ pth ++ optq)) =
      "https".data ++ ':' :: (('/' :: '/' :: n) ++ pth ++ optq) := by
    apply removeUnsafe_no_op
    intro c hc
    have hms : c ∈ "https".data ∨ c = ':' ∨ c = '/' ∨ c ∈ n ∨ c ∈ pth ∨
        c ∈ optq := by
      simp only [List.mem_append, List.mem_cons] at hc ⊢
      tauto
    rcases hms with h | h | h | h | h | h
    · have h5 : c ∈ ['h', 't', 't', 'p', 's'] := h
      simp only [List.mem_cons, List.not_mem_nil, or_false] at h5
      rcases h5 with h5 | h5 | h5 | h5 | h5 <;> subst h5 <;>
        exact ⟨by decide, by decide, by decide⟩
    · subst h
      exact ⟨by decide, by decide, by decide⟩
    · subst h
      exact ⟨by decide, by decide, by decide⟩
    · exact (hn c h).2
    · obtain ⟨_, _, a, b, d⟩ := hpth c h
      exact ⟨a, b, d⟩
    · rcases hoptqmem c h with h | h
      · subst h
        exact ⟨by decide, by decide, by decide⟩
      · obtain ⟨_, _, _, a, b, d, _⟩ := qchar_facts (hq c h)
        exact ⟨a, b, d⟩
  have htake2 : ((('/' :: '/' :: n) ++ pth) ++ optq).take 2 = ['/', '/'] := rfl
  have hdrop : ((('/' :: '/' :: n) ++ pth) ++ optq).drop 2 =
      (n ++ pth) ++ optq := rfl
  have hbhead : ∀ c, (pth ++ optq).head? = some c →
      isNetlocDelim c = true := by
    intro c hc
    rcases hhead with hp0 | hp1
    · subst hp0
      rw [List.nil_append, hoptq] at hc
      split at hc
      · simp at hc
      · simp at hc
        rw [← hc]
        decide
    · cases pth with
      | nil => simp at hp1
      | cons x xs =>
        simp at hp1
        rw [List.cons_append] at hc
        simp at hc
        rw [← hc, hp1]
        decide
  have hsn : splitNetloc ((n ++ pth) ++ optq) = (n, pth ++ optq) := by
    rw [List.append_assoc]
    exact splitNetloc_append (fun c hc => (hn c hc).1) hbhead
  have hbf : splitAtFirstOpt '#' (pth ++ optq) = (pth ++ optq, []) := by
    apply splitAtFirstOpt_not_mem
    intro hmem
    rcases List.mem_append.mp hmem with h | h
    · exact (hpth '#' h).1 rfl
    · rcases hoptqmem '#' h with h2 | h2
      · exact absurd h2 (by decide)
      · exact (qchar_facts (hq '#' h2)).2.1 rfl
  have hpq : splitAtFirstOpt '?' (pth ++ optq) = (pth, q') := by
    have hnoq : '?' ∉ pth := fun hmem => (hpth '?' hmem).2.1 rfl
    rw [hoptq]
    by_cases hqe : q'.isEmpty
    · rw [if_pos hqe, List.append_nil, splitAtFirstOpt_not_mem hnoq,
        List.isEmpty_iff.mp hqe]
    · rw [if_neg hqe, splitAtFirstOpt_append pth q' hnoq]
  have hcontains : pth.contains ';' = false := by
    cases hcc : pth.contains ';' with
    | false => rfl
    | true => exact absurd (List.mem_of_elem_eq_true hcc) hsemi
  have husep : usesParams "https".data = true := by decide
  have hss2 : splitScheme (['h', 't', 't', 'p', 's'] ++ ':' ::
      (('/' :: '/' :: n) ++ pth ++ optq)) =
      ("https".data, ('/' :: '/' :: n) ++ pth ++ optq) :=
    splitScheme_https (('/' :: '/' :: n) ++ pth ++ optq)
  simp only [urlparseE, e0, hrm, splitScheme_https, hss2, htake2, hdrop, hsn,
    hbr, hbf, hpq, husep, hcontains, Bool.true_and, Bool.false_and, if_true,
    if_false, Bool.false_eq_true, ite_false, ite_true]

/-- Core idempotence: re-canonicalizing the exact output of
`canonicalize_url` is stable, for netloc/path pieces satisfying what a
successful parse guarantees, provided the stripped path carries no `;`
and the parsed URL is not a netloc-free path starting with `//`. -/
theorem canonical_unsplit_idem (n path1 : List Char)
    (qp : List (List Char × List Char))
    (hnetF : ∀ c ∈ n, isNetlocDelim c = false ∧ c ≠ '\t' ∧ c ≠ '\r' ∧ c ≠ '\n')
    (hbrF : netlocBracketsOk n = true)
    (hpathF : ∀ c ∈ path1, c ≠ '#' ∧ c ≠ '?' ∧ c ≠ '\t' ∧ c ≠ '\r' ∧ c ≠ '\n')
    (hlast : ∀ c, path1.getLast? = some c → c ≠ '/')
    (hsemi : ';' ∉ path1)
    (h2 : ¬(n = [] ∧ path1.take 2 = ['/', '/'])) :
    canonicalize_url_chars (urlunparsePy "https".data n path1 []
        (urlencodePy (qp.filter (fun kv => keepParam kv.1))) []) =
      some (urlunparsePy "https".data n path1 []
        (urlencodePy (qp.filter (fun kv => keepParam kv.1))) []) := by
  set q := qp.filter (fun kv => keepParam kv.1) with hq_def
  set query := urlencodePy q with hquery_def
  set pref := (if (!path1.isEmpty && decide (path1.headD ' ' ≠ '/')) = true
    then '/' :: path1 else path1) with hpref_def
  have hprefhead : pref = [] ∨ pref.head? = some '/' := by
    rw [hpref_def]
    split
    · exact Or.inr rfl
    · rename_i hcond
      cases path1 with
      | nil => exact Or.inl rfl
      | cons a t =>
        right
        simp at hcond
        simp [hcond]
  have hprefmem : ∀ c ∈ pref, c = '/' ∨ c ∈ path1 := by
    rw [hpref_def]
    split
    · intro c hc
      rcases List.mem_cons.mp hc with h | h
      · exact Or.inl h
      · exact Or.inr h
    · exact fun c hc => Or.inr hc
  have hpreflast : ∀ c, pref.getLast? = some c → c ≠ '/' := by
    rw [hpref_def]
    split
    · rename_i hcond
      intro c hc
      cases path1 with
      | nil => simp at hcond
      | cons a t =>
        rw [show ('/' :: a :: t) = ['/'] ++ (a :: t) from rfl,
          List.getLast?_append] at hc
        cases hgl : (a :: t).getLast? with
        | none => simp at hgl
        | some d =>
          rw [hgl] at hc
          simp at hc
          rw [← hc]
          exact hlast d hgl
    · exact hlast
  have hprefF : ∀ c ∈ pref,
      c ≠ '#' ∧ c ≠ '?' ∧ c ≠ '\t' ∧ c ≠ '\r' ∧ c ≠ '\n' := by
    intro c hc
    rcases hprefmem c hc with h | h
    · subst h
      exact ⟨by decide, by decide, by decide, by decide, by decide⟩
    · exact hpathF c h
  have hprefsemi : ';' ∉ pref := by
    intro h
    rcases hprefmem ';' h with h | h
    · exact absurd h (by decide)
    · exact hsemi h
  have hqchars := urlencode_chars q
  rw [← hquery_def] at hqchars
  have husn : usesNetloc "https".data = true := by decide
  have hse : ("https".data).isEmpty = false := by decide
  have hC1 : (!n.isEmpty || !("https".data).isEmpty && usesNetloc "https".data
      && decide (List.take 2 path1 ≠ ['/', '/'])) = true := by
    by_cases hn0 : n.isEmpty
    · have hn' : n = [] := List.isEmpty_iff.mp hn0
      have h2' : path1.take 2 ≠ ['/', '/'] := fun hh => h2 ⟨hn', hh⟩
      simp [husn, hse, h2']
    · simp [hn0]
  have hC2 : (!n.isEmpty || !("https".data).isEmpty && usesNetloc "https".data
      && decide (List.take 2 pref ≠ ['/', '/'])) = true := by
    by_cases hn0 : n.isEmpty
    · have hn' : n = [] := List.isEmpty_iff.mp hn0
      have h2' : path1.take 2 ≠ ['/', '/'] := fun hh => h2 ⟨hn', hh⟩
      have hp2 : pref.take 2 ≠ ['/', '/'] := by
        rw [hpref_def]
        split
        · rename_i hcond
          cases path1 with
          | nil => simp at hcond
          | cons a t =>
            simp at hcond
            intro hh
            simp [List.take] at hh
            exact hcond hh
        · exact h2'
      simp [husn, hse, hp2]
    · simp [hn0]
  have h2p : ¬(n = [] ∧ pref.take 2 = ['/', '/']) := by
    rintro ⟨hn', hh⟩
    have h2' : path1.take 2 ≠ ['/', '/'] := fun hx => h2 ⟨hn', hx⟩
    revert hh
    rw [hpref_def]
    split
    · rename_i hcond
      cases path1 with
      | nil => simp at hcond
      | cons a t =>
        simp at hcond
        intro hh
        simp [List.take] at hh
        exact hcond hh
    · exact h2'
  have hprefstable :
      (if (!pref.isEmpty && decide (pref.headD ' ' ≠ '/')) = true
        then '/' :: pref else pref) = pref := by
    rcases hprefhead with h | h
    · rw [h]
      simp
    · clear_value pref
      cases pref with
      | nil => simp at h
      | cons a t =>
        have ha : a = '/' := by simpa using h
        subst ha
        simp
  have husn2 : usesNetloc ['h', 't', 't', 'p', 's'] = true := by decide
  have hC1n : (!n.isEmpty || true && usesNetloc ['h', 't', 't', 'p', 's'] &&
      decide (List.take 2 path1 ≠ ['/', '/'])) = true := by
    by_cases hn0 : n.isEmpty
    · have h2' : path1.take 2 ≠ ['/', '/'] :=
        fun hx => h2 ⟨List.isEmpty_iff.mp hn0, hx⟩
      simp [husn2, h2']
    · simp [hn0]
  have hC2n : (!n.isEmpty || true && usesNetloc ['h', 't', 't', 'p', 's'] &&
      decide (List.take 2 pref ≠ ['/', '/'])) = true := by
    by_cases hn0 : n.isEmpty
    · have h2' : pref.take 2 ≠ ['/', '/'] :=
        fun hx => h2p ⟨List.isEmpty_iff.mp hn0, hx⟩
      simp [husn2, h2']
    · simp [hn0]
  have hshape : urlunparsePy "https".data n path1 [] query [] =
      "https".data ++ ':' :: (('/' :: '/' :: n) ++ pref ++
        (if query.isEmpty then [] else '?' :: query)) := by
    by_cases hq0 : query.isEmpty
    · simp only [urlunparsePy, urlunsplitPy, ← hpref_def,
        List.isEmpty_nil, Bool.not_true, Bool.false_eq_true, if_false, hse,
        Bool.not_false, hq0, ite_true, ite_false, List.append_nil, hC1n]
    · simp only [urlunparsePy, urlunsplitPy, ← hpref_def,
        List.isEmpty_nil, Bool.not_true, Bool.false_eq_true, if_false, hse,
        Bool.not_false, hq0, ite_true, ite_false, hC1n]
      simp [List.append_assoc]
  have hshape2 : urlunparsePy "https".data n pref [] query [] =
      "https".data ++ ':' :: (('/' :: '/' :: n) ++ pref ++
        (if query.isEmpty then [] else '?' :: query)) := by
    by_cases hq0 : query.isEmpty
    · simp only [urlunparsePy, urlunsplitPy, hprefstable,
        List.isEmpty_nil, Bool.not_true, Bool.false_eq_true, if_false, hse,
        Bool.not_false, hq0, ite_true, ite_false, List.append_nil, hC2n]
    · simp only [urlunparsePy, urlunsplitPy, hprefstable,
        List.isEmpty_nil, Bool.not_true, Bool.false_eq_true, if_false, hse,
        Bool.not_false, hq0, ite_true, ite_false, hC2n]
      simp [List.append_assoc]
  have hparse : urlparseE (urlunparsePy "https".data n path1 [] query []) =
      some ⟨"https".data, n, pref, [], query, []⟩ := by
    rw [hshape]
    exact urlparse_https_form n pref query hnetF hbrF hprefF hprefhead
      hprefsemi hqchars
  have hrs : rstripSlash pref = pref := rstripSlash_no_op hpreflast
  have hpq2 : parse_qsl query = q := by
    rw [hquery_def]
    exact parse_qsl_urlencode q
  have hfilter : q.filter (fun kv => keepParam kv.1) = q := by
    rw [hq_def]
    exact filter_idem _ _
  have hvne : (urlunparsePy "https".data n path1 [] query []).isEmpty
      = false := by
    rw [hshape]
    rfl
  simp only [canonicalize_url_chars, hvne, Bool.false_eq_true, if_false,
    hparse, hrs, hpq2, hfilter, ← hquery_def, Option.some.injEq]
  rw [hshape2, hshape]

/-! ## URL-machinery lemmas: query-string algebra -/

theorem splitOnChar_ne_nil (sep : Char) (s : List Char) :
    splitOnChar sep s ≠ [] := by
  cases s with
  | nil => simp [splitOnChar]
  | cons c rest =>
    rw [splitOnChar]
    split
    · simp
    · cases h : splitOnChar sep rest <;> simp

theorem splitOnChar_concat (sep : Char) (a b : List Char) :
    splitOnChar sep (a ++ sep :: b) =
      splitOnChar sep a ++ splitOnChar sep b := by
  induction a with
  | nil => simp [splitOnChar]
  | cons c rest ih =>
    by_cases hc : c = sep
    · rw [List.cons_append, splitOnChar, if_pos hc, ih,
        splitOnChar, if_pos hc, List.cons_append]
    · rw [List.cons_append, splitOnChar, if_neg hc, ih]
      rw [splitOnChar, if_neg hc]
      cases hs : splitOnChar sep rest with
      | nil => exact absurd hs (splitOnChar_ne_nil sep rest)
      | cons g gs => rfl

theorem qsl_foldr_acc (l : List (List Char))
    (X : List (List Char × List Char)) :
    l.foldr (fun seg acc =>
        if seg.isEmpty then acc
        else
          match splitFirst '=' seg with
          | some (nm, v) => (unquotePlus nm, unquotePlus v) :: acc
          | none => (unquotePlus seg, []) :: acc) X =
      l.foldr (fun seg acc =>
        if seg.isEmpty then acc
        else
          match splitFirst '=' seg with
          | some (nm, v) => (unquotePlus nm, unquotePlus v) :: acc
          | none => (unquotePlus seg, []) :: acc) [] ++ X := by
  induction l with
  | nil => simp
  | cons g gs ih =>
    rw [List.foldr_cons, List.foldr_cons, ih]
    split
    · rfl
    · split <;> simp

theorem parse_qsl_eq_fold (qs : List Char) :
    parse_qsl qs = (splitOnChar '&' qs).foldr (fun seg acc =>
        if seg.isEmpty then acc
        else
          match splitFirst '=' seg with
          | some (nm, v) => (unquotePlus nm, unquotePlus v) :: acc
          | none => (unquotePlus seg, []) :: acc) [] := by
  cases qs with
  | nil => rfl
  | cons c rest => rw [parse_qsl, if_neg (by simp)]

theorem parse_qsl_append_seg (qs seg : List Char) :
    parse_qsl (qs ++ '&' :: seg) = parse_qsl qs ++ parse_qsl seg := by
  rw [parse_qsl_eq_fold (qs ++ '&' :: seg), splitOnChar_concat,
    List.foldr_append, ← parse_qsl_eq_fold seg, qsl_foldr_acc,
    ← parse_qsl_eq_fold qs]

theorem unquotePlus_id {s : List Char}
    (h : ∀ c ∈ s, c ≠ '%' ∧ c ≠ '+') : unquotePlus s = s := by
  unfold unquotePlus pyUnquote
  have hmap : ∀ t : List Char, (∀ c ∈ t, c ≠ '+') →
      t.map (fun c => if c = '+' then ' ' else c) = t := by
    intro t ht
    induction t with
    | nil => rfl
    | cons c r ih =>
      rw [List.map_cons, if_neg (ht c (by simp)),
        ih (fun x hx => ht x (by simp [hx]))]
  have hdec : ∀ t : List Char, (∀ c ∈ t, c ≠ '%') →
      pctDecodeBytes t = utf8Encode t := by
    intro t
    induction t with
    | nil => exact fun _ => rfl
    | cons c r ih =>
      intro ht
      rw [pctDecode_cons r (ht c (by simp)), ih (fun x hx => ht x (by simp [hx]))]
      rfl
  rw [hmap s (fun c hc => (h c hc).2), hdec s (fun c hc => (h c hc).1),
    utf8_round_trip]

/-- A single `name=value` segment with no `&` parses to one decoded pair. -/
theorem parse_qsl_single (nm w : List Char) (hnm : '=' ∉ nm)
    (hamp : '&' ∉ nm ++ '=' :: w) :
    parse_qsl (nm ++ '=' :: w) = [(unquotePlus nm, unquotePlus w)] := by
  rw [parse_qsl_eq_fold,
    splitOnChar_nodash (fun c hc he => hamp (by rw [← he]; exact hc))]
  rw [List.foldr_cons, List.foldr_nil]
  rw [if_neg (by cases nm <;> simp), splitFirst_append nm w hnm]

/-- Any successful reparse of a URL of the canonical overall shape
recovers exactly the encoded query, whatever the path/netloc mixture
`m` contains. -/
theorem urlparse_query_slice (m q' : List Char) (p2 : UrlParts)
    (hm : ∀ c ∈ m, c ≠ '#' ∧ c ≠ '?' ∧ c ≠ '\t' ∧ c ≠ '\r' ∧ c ≠ '\n')
    (hq : ∀ c ∈ q',
      (isAlwaysSafe c || c = '+' || c = '%' || c = '=' || c = '&') = true)
    (hp2 : urlparseE ("https".data ++ ':' :: '/' :: '/' :: (m ++
        (if q'.isEmpty then [] else '?' :: q'))) = some p2) :
    p2.query = q' := by
  set optq := (if q'.isEmpty then [] else '?' :: q') with hoptq
  have hoptqmem : ∀ c ∈ optq, c = '?' ∨ c ∈ q' := by
    intro c hc
    rw [hoptq] at hc
    split at hc
    · simp at hc
    · rcases List.mem_cons.mp hc with h | h
      · exact Or.inl h
      · exact Or.inr h
  have e0 : lstripC0 ("https".data ++ ':' :: '/' :: '/' :: (m ++ optq)) =
      "https".data ++ ':' :: '/' :: '/' :: (m ++ optq) := by
    show lstripC0 ('h' :: ('t' :: 't' :: 'p' :: 's' :: ':' :: '/' :: '/' :: (m ++ optq))) = _
    rw [lstripC0_nostrip (by decide)]
    rfl
  have hrm : removeUnsafe ("https".data ++ ':' :: '/' :: '/' :: (m ++ optq)) =
      "https".data ++ ':' :: '/' :: '/' :: (m ++ optq) := by
    apply removeUnsafe_no_op
    intro c hc
    have hms : c ∈ "https".data ∨ c = ':' ∨ c = '/' ∨ c ∈ m ∨ c ∈ optq := by
      simp only [List.mem_append, List.mem_cons] at hc ⊢
      tauto
    rcases hms with h | h | h | h | h
    · have h5 : c ∈ ['h', 't', 't', 'p', 's'] := h
      simp only [List.mem_cons, List.not_mem_nil, or_false] at h5
      rcases h5 with h5 | h5 | h5 | h5 | h5 <;> subst h5 <;>
        exact ⟨by decide, by decide, by decide⟩
    · subst h
      exact ⟨by decide, by decide, by decide⟩
    · subst h
      exact ⟨by decide, by decide, by decide⟩
    · obtain ⟨_, _, a, b, d⟩ := hm c h
      exact ⟨a, b, d⟩
    · rcases hoptqmem c h with h | h
      · subst h
        exact ⟨by decide, by decide, by decide⟩
      · obtain ⟨_, _, _, a, b, d, _⟩ := qchar_facts (hq c h)
        exact ⟨a, b, d⟩
  have hss2 : splitScheme (['h', 't', 't', 'p', 's'] ++ ':' ::
      ('/' :: '/' :: (m ++ optq))) =
      ("https".data, '/' :: '/' :: (m ++ optq)) :=
    splitScheme_https ('/' :: '/' :: (m ++ optq))
  have htake2 : ('/' :: '/' :: (m ++ optq)).take 2 = ['/', '/'] := rfl
  have hdrop : ('/' :: '/' :: (m ++ optq)).drop 2 = m ++ optq := rfl
  -- rest2 decomposes as some `m2 ++ optq` with `#`, `?` not in `m2`
  obtain ⟨m2, hm2eq, hm2⟩ : ∃ m2,
      (m ++ optq).dropWhile (fun c => !isNetlocDelim c) = m2 ++ optq ∧
      ∀ c ∈ m2, c ≠ '#' ∧ c ≠ '?' := by
    rw [List.dropWhile_append]
    split
    · rw [hoptq]
      by_cases hqe : q'.isEmpty
      · refine ⟨[], ?_, by simp⟩
        rw [if_pos hqe]
        rfl
      · refine ⟨[], ?_, by simp⟩
        rw [if_neg hqe, List.dropWhile_cons_of_neg (by decide), List.nil_append]
    · refine ⟨m.dropWhile (fun c => !isNetlocDelim c), rfl, ?_⟩
      intro c hc
      have := hm c ((List.dropWhile_sublist _).mem hc)
      exact ⟨this.1, this.2.1⟩
  have hbf : splitAtFirstOpt '#' (m2 ++ optq) = (m2 ++ optq, []) := by
    apply splitAtFirstOpt_not_mem
    intro hmem
    rcases List.mem_append.mp hmem with h | h
    · exact (hm2 '#' h).1 rfl
    · rcases hoptqmem '#' h with h2 | h2
      · exact absurd h2 (by decide)
      · exact (qchar_facts (hq '#' h2)).2.1 rfl
  have hpq : splitAtFirstOpt '?' (m2 ++ optq) = (m2, q') := by
    have hnoq : '?' ∉ m2 := fun hmem => (hm2 '?' hmem).2 rfl
    rw [hoptq]
    by_cases hqe : q'.isEmpty
    · rw [if_pos hqe, List.append_nil, splitAtFirstOpt_not_mem hnoq,
        List.isEmpty_iff.mp hqe]
    · rw [if_neg hqe, splitAtFirstOpt_append m2 q' hnoq]
  by_cases hbr2 : netlocBracketsOk
      ((m ++ optq).takeWhile (fun c => !isNetlocDelim c)) = true
  · simp only [urlparseE, e0, hrm, hss2, splitNetloc, htake2, hdrop, hm2eq,
      hbr2, hbf, hpq, if_true, ite_true, Option.some.injEq] at hp2
    rw [← hp2]
  · have hcond : ¬ (netlocBracketsOk
        (splitNetloc (('/' :: '/' :: (m ++ optq)).drop 2)).1 = true) := by
      simpa [splitNetloc, hdrop] using hbr2
    simp only [urlparseE, e0, hrm, hss2, htake2, if_true, ite_true] at hp2
    rw [if_neg hcond] at hp2
    simp at hp2

/-- The canonical output always has the overall shape
`https://(mixture)(?query)`, with the reencoded query at the end. -/
theorem canonical_shape {url : List Char} {p : UrlParts} {w : List Char}
    (hp : urlparseE url = some p) (hnil : url ≠ [])
    (hw : canonicalize_url_chars url = some w) :
    ∃ m, w = "https".data ++ ':' :: '/' :: '/' :: (m ++
        (if (urlencodePy ((parse_qsl p.query).filter
            (fun kv => keepParam kv.1))).isEmpty then []
          else '?' :: urlencodePy ((parse_qsl p.query).filter
            (fun kv => keepParam kv.1)))) ∧
      ∀ c ∈ m, c ≠ '#' ∧ c ≠ '?' ∧ c ≠ '\t' ∧ c ≠ '\r' ∧ c ≠ '\n' := by
  obtain ⟨hnetF, hbrF, hpathF⟩ := urlparseE_facts hp
  have hne : url.isEmpty = false := by
    cases hu : url with
    | nil => exact absurd hu hnil
    | cons a t => rfl
  simp only [canonicalize_url_chars, hne, Bool.false_eq_true, if_false,
    hp] at hw
  set path1 := rstripSlash p.path with hpath1_def
  set q := (parse_qsl p.query).filter (fun kv => keepParam kv.1) with hq_def
  set query := urlencodePy q with hquery_def
  set optq := (if query.isEmpty then [] else '?' :: query) with hoptq
  rw [← Option.some.inj hw]
  have hpath1F : ∀ c ∈ path1,
      c ≠ '#' ∧ c ≠ '?' ∧ c ≠ '\t' ∧ c ≠ '\r' ∧ c ≠ '\n' :=
    fun c hc => hpathF c (rstripSlash_subset hc)
  have hnetF2 : ∀ c ∈ p.netloc,
      c ≠ '#' ∧ c ≠ '?' ∧ c ≠ '\t' ∧ c ≠ '\r' ∧ c ≠ '\n' := by
    intro c hc
    obtain ⟨hd, h1, h2, h3⟩ := hnetF c hc
    refine ⟨?_, ?_, h1, h2, h3⟩
    · intro he
      rw [he] at hd
      exact absurd hd (by decide)
    · intro he
      rw [he] at hd
      exact absurd hd (by decide)
  have hse : ("https".data).isEmpty = false := by decide
  have husn2 : usesNetloc ['h', 't', 't', 'p', 's'] = true := by decide
  by_cases hCC : p.netloc = [] ∧ path1.take 2 = ['/', '/']
  · -- no netloc and `//`-path: `urlunsplit` keeps the path verbatim
    have hCf : (!p.netloc.isEmpty ||
        true && usesNetloc ['h', 't', 't', 'p', 's'] &&
        decide (List.take 2 path1 ≠ ['/', '/'])) = false := by
      simp [hCC.1, hCC.2]
    have hsplit2 : path1 = '/' :: '/' :: path1.drop 2 := by
      have h := hCC.2
      cases hp1 : path1 with
      | nil => rw [hp1] at h; simp at h
      | cons x t =>
        cases t with
        | nil => rw [hp1] at h; simp at h
        | cons y t2 =>
          rw [hp1] at h
          simp [List.take] at h
          rw [h.1, h.2]
          rfl
    refine ⟨path1.drop 2, ?_, ?_⟩
    · by_cases hq0 : query.isEmpty
      · simp only [urlunparsePy, urlunsplitPy, List.isEmpty_nil,
          Bool.not_true, Bool.false_eq_true, if_false, hse, Bool.not_false,
          hq0, ite_true, ite_false, List.append_nil, hCf, ← hoptq]
        rw [hsplit2]
        simp
        rw [hoptq, if_pos hq0]
      · simp only [urlunparsePy, urlunsplitPy, List.isEmpty_nil,
          Bool.not_true, Bool.false_eq_true, if_false, hse, Bool.not_false,
          hq0, ite_true, ite_false, hCf, ← hoptq]
        rw [hsplit2]
        simp
        rw [hoptq, if_neg hq0]
    · intro c hc
      exact hpath1F c ((List.drop_subset 2 path1) hc)
  · -- netloc present or path not starting with `//`
    have hC1n : (!p.netloc.isEmpty ||
        true && usesNetloc ['h', 't', 't', 'p', 's'] &&
        decide (List.take 2 path1 ≠ ['/', '/'])) = true := by
      by_cases hn0 : p.netloc.isEmpty
      · have h2' : path1.take 2 ≠ ['/', '/'] :=
          fun hx => hCC ⟨List.isEmpty_iff.mp hn0, hx⟩
        simp [husn2, h2']
      · simp [hn0]
    refine ⟨p.netloc ++ (if (!path1.isEmpty &&
        decide (path1.headD ' ' ≠ '/')) = true then '/' :: path1 else path1),
      ?_, ?_⟩
    · by_cases hq0 : query.isEmpty
      · simp only [urlunparsePy, urlunsplitPy, List.isEmpty_nil,
          Bool.not_true, Bool.false_eq_true, if_false, hse, Bool.not_false,
          hq0, ite_true, ite_false, List.append_nil, hC1n, ← hoptq]
        simp [List.append_assoc]
        rw [hoptq, if_pos hq0]
      · simp only [urlunparsePy, urlunsplitPy, List.isEmpty_nil,
          Bool.not_true, Bool.false_eq_true, if_false, hse, Bool.not_false,
          hq0, ite_true, ite_false, hC1n, ← hoptq]
        simp [List.append_assoc]
        rw [hoptq, if_neg hq0]
    · intro c hc
      rcases List.mem_append.mp hc with h | h
      · exact hnetF2 c h
      · have hpm : c = '/' ∨ c ∈ path1 := by
          revert h
          split
          · intro h
            rcases List.mem_cons.mp h with h | h
            · exact Or.inl h
            · exact Or.inr h
          · exact fun h => Or.inr h
        rcases hpm with h | h
        · subst h
          exact ⟨by decide, by decide, by decide, by decide, by decide⟩
        · exact hpath1F c h

/-- Every query pair surviving in a canonical URL passes the filter. -/
theorem canonical_query_params {u w : List Char} {p2 : UrlParts}
    (hw : canonicalize_url_chars u = some w)
    (hp2 : urlparseE w = some p2) :
    ∀ kv ∈ parse_qsl p2.query, keepParam kv.1 = true := by
  by_cases hnil : u = []
  · subst hnil
    have hw' : some ([] : List Char) = some w := hw
    rw [← Option.some.inj hw'] at hp2
    have h0 : urlparseE ([] : List Char) =
        some ⟨[], [], [], [], [], []⟩ := rfl
    rw [h0] at hp2
    rw [← Option.some.inj hp2]
    simp [parse_qsl]
  · cases hpu : urlparseE u with
    | none =>
      have hne : u.isEmpty = false := by
        cases hu : u with
        | nil => exact absurd hu hnil
        | cons a t => rfl
      simp [canonicalize_url_chars, hne, hpu] at hw
    | some p =>
      obtain ⟨m, hmeq, hm⟩ := canonical_shape hpu hnil hw
      rw [hmeq] at hp2
      have hqch := urlencode_chars
        ((parse_qsl p.query).filter (fun kv => keepParam kv.1))
      have hq' := urlparse_query_slice m _ p2 hm hqch hp2
      rw [hq', parse_qsl_urlencode]
      intro kv hkv
      have h5 := List.of_mem_filter hkv
      simpa using h5

/-- Appending one `spm`-named parameter to the raw query leaves the
canonical form unchanged. -/
theorem canonicalize_spm_append {u1 u2 : List Char} {p1 : UrlParts}
    (nm w : List Char)
    (h1 : urlparseE u1 = some p1)
    (h2 : urlparseE u2 =
      some { p1 with query := p1.query ++ '&' :: (nm ++ '=' :: w) })
    (hnm : lowerList nm = "spm".data) (hamp : '&' ∉ w)
    (hne1 : u1 ≠ []) (hne2 : u2 ≠ []) :
    canonicalize_url_chars u1 = canonicalize_url_chars u2 := by
  have hmem : ∀ x : Char, x ∈ nm → asciiLower x ∈ "spm".data := by
    intro x hx
    rw [← hnm]
    exact List.mem_map_of_mem _ hx
  have heq : '=' ∉ nm := fun h => absurd (hmem '=' h) (by decide)
  have hpct : ∀ c ∈ nm, c ≠ '%' ∧ c ≠ '+' := by
    intro c hc
    constructor
    · intro he
      exact absurd (hmem c hc) (by rw [he]; decide)
    · intro he
      exact absurd (hmem c hc) (by rw [he]; decide)
  have hunq : unquotePlus nm = nm := unquotePlus_id hpct
  have hkp : keepParam nm = false := by simp [keepParam, hnm]
  have hampseg : '&' ∉ nm ++ '=' :: w := by
    intro h
    rcases List.mem_append.mp h with h | h
    · exact absurd (hmem '&' h) (by decide)
    · rcases List.mem_cons.mp h with h | h
      · exact absurd h (by decide)
      · exact hamp h
  have hq2 : parse_qsl (p1.query ++ '&' :: (nm ++ '=' :: w)) =
      parse_qsl p1.query ++ [(nm, unquotePlus w)] := by
    rw [parse_qsl_append_seg, parse_qsl_single nm w heq hampseg, hunq]
  have hne1' : u1.isEmpty = false := by
    cases hu : u1 with
    | nil => exact absurd hu hne1
    | cons a t => rfl
  have hne2' : u2.isEmpty = false := by
    cases hu : u2 with
    | nil => exact absurd hu hne2
    | cons a t => rfl
  simp only [canonicalize_url_chars, hne1', hne2', Bool.false_eq_true,
    if_false, h1, h2]
  rw [hq2, List.filter_append]
  simp [List.filter_cons, hkp]

/-! # Claim theorems -/

/-- C7: the title validator rejects the boilerplate registration number
`京ICP备12345678号`, the date-only string `2025年3月21日2025年3月25日` and the
bare notice label `通知`, and accepts `第十届全国大学生数学建模竞赛通知`,
returning it trimmed with whitespace collapsed (here: unchanged). -/
theorem C7_title_vectors :
    normalize_title "京ICP备12345678号" = none ∧
    normalize_title "2025年3月21日2025年3月25日" = none ∧
    normalize_title "通知" = none ∧
    normalize_title "第十届全国大学生数学建模竞赛通知" =
      some "第十届全国大学生数学建模竞赛通知" := by
  refine ⟨by decide, by decide, by decide, by decide⟩

/-- C9: ranking monotonicity.  For two items identical except for
`bonusAmount`, the one with the numerically larger amount never scores
lower; for two items identical except for `deadline` (status is a stored
field, hence equal on both), the one whose parseable deadline is earlier —
chronologically, i.e. by civil day number — and still in the future scores
at least as high.  Quantified over every whitelist configuration and every
current time. -/
theorem C9_rank_monotone :
    (∀ (wl : Whitelist) (item : Item) (now : PyTime) (b1 b2 : Int), b1 ≤ b2 →
        (rank_item wl { item with bonusAmount := b1 } now).qualityScore ≤
          (rank_item wl { item with bonusAmount := b2 } now).qualityScore) ∧
    (∀ (wl : Whitelist) (item : Item) (now : PyTime) (d1 d2 : String)
        (D1 D2 : Date), parseDate d1 = some D1 → parseDate d2 = some D2 →
        dayNumber D1 ≤ dayNumber D2 → 0 ≤ daysBetween D1 now →
        (rank_item wl { item with deadline := d2 } now).qualityScore ≤
          (rank_item wl { item with deadline := d1 } now).qualityScore) := by
  constructor
  · intro wl item now b1 b2 hb
    simp only [rank_item]
    have ht := bonusTier_mono hb
    omega
  · intro wl item now d1 d2 D1 D2 h1 h2 hle hfut
    simp only [rank_item]
    have hs := @dlScore_mono item.status _ _ _ _ _ h1 h2 hle hfut
    have hdom := @domOfficial_congr wl
      (String.mk (lowerList item.sourceUrl.data))
      (wlReasons wl (String.mk (lowerList
          (item.title.data ++ ' ' :: item.summary.data ++ ' ' ::
            item.sourceName.data))) ++
        statusReasons item.status item.startDate now ++
        dlReasons item.status d2 now ++ authReasons item.sourceName)
      (wlReasons wl (String.mk (lowerList
          (item.title.data ++ ' ' :: item.summary.data ++ ' ' ::
            item.sourceName.data))) ++
        statusReasons item.status item.startDate now ++
        dlReasons item.status d1 now ++ authReasons item.sourceName)
      (by
        have e2 := dlReasons_not_auth item.status d2 now
        have e1 := dlReasons_not_auth item.status d1 now
        have := @mem_append_congr _ _ (wlReasons wl (String.mk (lowerList
            (item.title.data ++ ' ' :: item.summary.data ++ ' ' ::
              item.sourceName.data))) ++
          statusReasons item.status item.startDate now)
          (authReasons item.sourceName) e2 e1
        simpa [List.append_assoc] using this)
    rw [hdom]
    omega

theorem C9_rank_monotone_witness :
    ((rank_item ⟨[], []⟩ { sampleA with bonusAmount := 0 }
        ⟨⟨2025, 10, 12⟩, 36000⟩).qualityScore ≤
      (rank_item ⟨[], []⟩ { sampleA with bonusAmount := 50000 }
        ⟨⟨2025, 10, 12⟩, 36000⟩).qualityScore) ∧
    ((rank_item ⟨[], []⟩ { sampleA with deadline := "2025-11-30" }
        ⟨⟨2025, 10, 12⟩, 36000⟩).qualityScore ≤
      (rank_item ⟨[], []⟩ { sampleA with deadline := "2025-10-20" }
        ⟨⟨2025, 10, 12⟩, 36000⟩).qualityScore) :=
  ⟨C9_rank_monotone.1 ⟨[], []⟩ sampleA ⟨⟨2025, 10, 12⟩, 36000⟩ 0 50000
      (by decide),
   C9_rank_monotone.2 ⟨[], []⟩ sampleA ⟨⟨2025, 10, 12⟩, 36000⟩
      "2025-10-20" "2025-11-30" ⟨2025, 10, 20⟩ ⟨2025, 11, 30⟩
      (by decide) (by decide) (by decide) (by decide)⟩

/-- C1: merging is duplicate-free and idempotent on identity.  For every
catalog satisfying the data-model invariants (every record's source URL
canonicalizes without error and no two records share a canonical URL — §3
of the spec makes this an invariant of catalogs), merging a new-items list
containing two items with the same canonical URL (in particular the same
item twice) leaves exactly one record with that canonical URL, and so does
merging the same item twice in succession; two items sharing a canonical
URL are reconciled into a single record, never inserted as two. -/
theorem C1_merge_dedup :
    (∀ (old : List Item) (i1 i2 : Item) (cu : List Char) (nowTs : String),
        (∀ o ∈ old.map canonKey, o.isSome) → (old.map canonKey).Nodup →
        canonKey i1 = some cu → canonKey i2 = some cu →
        ∃ m a, merge_items old [i1, i2] nowTs = some (m, a) ∧
          countCanon m cu = 1) ∧
    (∀ (old : List Item) (i : Item) (cu : List Char) (nowTs : String),
        (∀ o ∈ old.map canonKey, o.isSome) → (old.map canonKey).Nodup →
        canonKey i = some cu →
        ∃ m1 a1 m2 a2, merge_items old [i] nowTs = some (m1, a1) ∧
          countCanon m1 cu = 1 ∧
          merge_items m1 [i] nowTs = some (m2, a2) ∧ countCanon m2 cu = 1) := by
  constructor
  · intro old i1 i2 cu nowTs hall hnd h1 h2
    exact merge_pair_count nowTs hall hnd h1 h2
  · intro old i cu nowTs hall hnd hi
    obtain ⟨m1, a1, hr1, hc1, hall1, hnd1⟩ := merge_single_count nowTs hall hnd hi
    obtain ⟨m2, a2, hr2, hc2, _, _⟩ := merge_single_count nowTs hall1 hnd1 hi
    exact ⟨m1, a1, m2, a2, hr1, hc1, hr2, hc2⟩

theorem C1_merge_dedup_witness :
    (∃ m a, merge_items [sampleA] [sampleB, sampleB] "2025-03-01T00:00:00Z" =
        some (m, a) ∧ countCanon m sampleCU = 1) ∧
    (∃ m1 a1 m2 a2, merge_items [] [sampleB] "2025-03-01T00:00:00Z" =
        some (m1, a1) ∧ countCanon m1 sampleCU = 1 ∧
        merge_items m1 [sampleB] "2025-03-01T00:00:00Z" = some (m2, a2) ∧
        countCanon m2 sampleCU = 1) :=
  ⟨C1_merge_dedup.1 [sampleA] sampleB sampleB sampleCU "2025-03-01T00:00:00Z"
      (by decide) (by decide) (by decide) (by decide),
   C1_merge_dedup.2 [] sampleB sampleCU "2025-03-01T00:00:00Z"
      (by decide) (by decide) (by decide)⟩

/-- C2 (counterexample): the claim is false for the default `bonusText`
`"-"`.  The new side's `bonusText` is the default `"-"` — "non-default"
per the claim's premise, so the existing value should be retained — yet
the merge overwrites the existing record's `bonusText` `"总奖金100万"` with
`"-"`: the code tests plain Python truthiness, and `"-"` is a nonempty,
hence truthy, string. -/
theorem C2_counterexample :
    sampleB.bonusText = "-" ∧
    (merge_items [sampleA] [sampleB] "2025-03-01T00:00:00Z").map
      (fun r => r.1.map Item.bonusText) = some ["-"] ∧
    sampleA.bonusText = "总奖金100万" ∧ ("-" : String) ≠ "总奖金100万" := by
  refine ⟨by decide, by decide, by decide, by decide⟩

/-- C2 (amended): field-level merge overwrites exactly the fields whose
new-side value is Python-truthy: a nonempty string, a nonzero number, a
nonempty list, or `True`.  Empty/zero new-side values retain the existing
value, but the default `bonusText` `"-"` (and likewise the default
`status`/`level` strings) is a nonempty string, counts as informative, and
does overwrite.  Fields outside the update list (`sourceUrl`, `sourceName`,
`summary`, `id`) are never touched. -/
theorem C2_truthy_overwrite (e i : Item) (now : String) (cu : List Char)
    (he : canonKey e = some cu) (hi : canonKey i = some cu) :
    merge_items [e] [i] now = some ([mergeInto e i now], []) ∧
    ((i.title = "" → (mergeInto e i now).title = e.title) ∧
     (i.title ≠ "" → (mergeInto e i now).title = i.title)) ∧
    ((i.bonusAmount = 0 → (mergeInto e i now).bonusAmount = e.bonusAmount) ∧
     (i.bonusAmount ≠ 0 → (mergeInto e i now).bonusAmount = i.bonusAmount)) ∧
    ((i.bonusText = "" → (mergeInto e i now).bonusText = e.bonusText) ∧
     (i.bonusText ≠ "" → (mergeInto e i now).bonusText = i.bonusText)) ∧
    ((i.deadline = "" → (mergeInto e i now).deadline = e.deadline) ∧
     (i.deadline ≠ "" → (mergeInto e i now).deadline = i.deadline)) ∧
    ((i.startDate = "" → (mergeInto e i now).startDate = e.startDate) ∧
     (i.startDate ≠ "" → (mergeInto e i now).startDate = i.startDate)) ∧
    ((i.status = "" → (mergeInto e i now).status = e.status) ∧
     (i.status ≠ "" → (mergeInto e i now).status = i.status)) ∧
    ((i.category = [] → (mergeInto e i now).category = e.category) ∧
     (i.category ≠ [] → (mergeInto e i now).category = i.category)) ∧
    ((i.tags = [] → (mergeInto e i now).tags = e.tags) ∧
     (i.tags ≠ [] → (mergeInto e i now).tags = i.tags)) ∧
    ((i.qualityScore = 0 →
        (mergeInto e i now).qualityScore = e.qualityScore) ∧
     (i.qualityScore ≠ 0 →
        (mergeInto e i now).qualityScore = i.qualityScore)) ∧
    ((i.rankReasons = [] → (mergeInto e i now).rankReasons = e.rankReasons) ∧
     (i.rankReasons ≠ [] → (mergeInto e i now).rankReasons = i.rankReasons)) ∧
    ((i.isWhitelist = false →
        (mergeInto e i now).isWhitelist = e.isWhitelist) ∧
     (i.isWhitelist = true → (mergeInto e i now).isWhitelist = true)) ∧
    ((i.level = "" → (mergeInto e i now).level = e.level) ∧
     (i.level ≠ "" → (mergeInto e i now).level = i.level)) ∧
    (mergeInto e i now).sourceUrl = e.sourceUrl ∧
    (mergeInto e i now).sourceName = e.sourceName ∧
    (mergeInto e i now).summary = e.summary ∧
    (mergeInto e i now).id = e.id := by
  refine ⟨merge_pair_single now he hi, ?_, ?_, ?_, ?_, ?_, ?_, ?_, ?_, ?_, ?_,
    ?_, ?_, rfl, rfl, rfl, rfl⟩ <;>
    constructor <;> intro h <;> simp [mergeInto, h]

theorem C2_truthy_overwrite_witness :
    merge_items [sampleA] [sampleB] "2025-03-01T00:00:00Z" =
      some ([mergeInto sampleA sampleB "2025-03-01T00:00:00Z"], []) :=
  (C2_truthy_overwrite sampleA sampleB "2025-03-01T00:00:00Z" sampleCU
    (by decide) (by decide)).1

/-- C3 (counterexample): the claim is false when the new side carries the
earlier timestamp.  The existing record was created at
`2025-01-05T00:00:00Z`, the incoming fetch of the same canonical URL
carries `createdAt = 2025-01-01T00:00:00Z` (the earlier of the two), yet
the surviving record keeps `2025-01-05T00:00:00Z`: the code only fills
`createdAt` when the existing record lacks it, and never compares
timestamps. -/
theorem C3_counterexample :
    sampleB.createdAt = "2025-01-01T00:00:00Z" ∧
    pyStrLt sampleB.createdAt.data sampleA.createdAt.data = true ∧
    (merge_items [sampleA] [sampleB] "2025-03-01T00:00:00Z").map
      (fun r => r.1.map Item.createdAt) = some ["2025-01-05T00:00:00Z"] ∧
    ("2025-01-05T00:00:00Z" : String) ≠ "2025-01-01T00:00:00Z" := by
  refine ⟨by decide, by decide, by decide, by decide⟩

/-- C3 (amended): after a merge, the surviving record's `createdAt` is the
*existing* record's `createdAt` whenever that is nonempty — regardless of
which side carries the earlier timestamp; only when the existing record
has no `createdAt` is it taken from the new item (or from `now_iso()` when
the new item lacks it too).  In the system's normal flow the existing
record is the earlier-seen one, so a later richer fetch preserves the
earlier record's original timestamp. -/
theorem C3_createdAt_rule (e i : Item) (now : String) (cu : List Char)
    (he : canonKey e = some cu) (hi : canonKey i = some cu) :
    (merge_items [e] [i] now).map (fun r => r.1.map Item.createdAt) =
      some [if e.createdAt ≠ "" then e.createdAt
            else if i.createdAt ≠ "" then i.createdAt else now] := by
  rw [merge_pair_single now he hi]
  simp [mergeInto]

theorem C3_createdAt_rule_witness :
    (merge_items [sampleA] [sampleB] "2025-03-01T00:00:00Z").map
      (fun r => r.1.map Item.createdAt) = some ["2025-01-05T00:00:00Z"] := by
  rw [C3_createdAt_rule sampleA sampleB "2025-03-01T00:00:00Z" sampleCU
    (by decide) (by decide)]
  decide

/-- C4 (counterexample): the claim's first and third vectors are false.
`extract_bonus("总奖金10万元")` does not return 100000: the greedy number
class of the money regex swallows `万`, so the figure parses as 10, and the
context keyword `总奖金` routes it into the *pool* bucket, which the legacy
`extract_bonus` wrapper discards — the returned amount is 0.
`extract_bonus("Prize Pool $1000")` likewise does not return 7200: the
`Prize Pool` context routes the (correctly converted) 7200 into the pool
bucket, and the returned single-prize amount is 0. -/
theorem C4_counterexample :
    (extract_bonus "总奖金10万元").1 ≠ 100000 ∧
    (extract_bonus "总奖金10万元").1 = 0 ∧
    (extract_bonus "Prize Pool $1000").1 ≠ 7200 ∧
    (extract_bonus "Prize Pool $1000").1 = 0 := by
  refine ⟨by decide, by decide, by decide, by decide⟩

/-- C4 (amended): the actual extraction results.  `"总奖金10万元"` yields
`(0, "-")` from `extract_bonus` (the figure lands in the pool bucket of
`extract_bonus_max`, and even there as 10, not 100000, because the greedy
number class swallows `万`); `"一等奖：5000元"` yields amount 5000;
`"Prize Pool $1000"` yields `(0, "-")` with the pool bucket holding
1000 × 7.2 = 7200; and any text in which the two money patterns find no
match yields `(0, "-")`. -/
theorem C4_extraction_vectors :
    extract_bonus "总奖金10万元" = (0, "-") ∧
    extract_bonus_max "总奖金10万元" = (0, "-", 10, "总奖金10万元") ∧
    (extract_bonus "一等奖：5000元").1 = 5000 ∧
    extract_bonus "Prize Pool $1000" = (0, "-") ∧
    (extract_bonus_max "Prize Pool $1000").2.2.1 = 7200 ∧
    (∀ t : String, allMoneyMatches t.data = [] → extract_bonus t = (0, "-")) := by
  refine ⟨by decide, by decide, by decide, by decide, by decide, ?_⟩
  intro t h
  unfold extract_bonus extract_bonus_max
  by_cases he : t.data = []
  · simp [he]
  · simp [he, h]

theorem C4_extraction_vectors_witness :
    extract_bonus "hello world" = (0, "-") :=
  C4_extraction_vectors.2.2.2.2.2 "hello world" (by decide)

/-- C5 (counterexample): the claim is false as stated.  At 10:00 on
2025-10-12 (now = date 2025-10-12, second-of-day 36000), a deadline equal to
today's date with no start date satisfies the claim's premise (the deadline
parses and is on/after now as a calendar date), yet `determine_status`
returns `"unknown"`, not `"open"`: rule 4 compares the deadline's *midnight*
against `now`, and midnight of today is already in the past. -/
theorem C5_counterexample :
    parseDate "2025-10-12" = some ⟨2025, 10, 12⟩ ∧
    determine_status "" "2025-10-12" ⟨⟨2025, 10, 12⟩, 36000⟩ = "unknown" ∧
    determine_status "" "2025-10-12" ⟨⟨2025, 10, 12⟩, 36000⟩ ≠ "open" := by
  refine ⟨by decide, by decide, by decide⟩

/-- C5 (amended): rule 4 fires on the datetime comparison "deadline's
midnight ≥ now": for every (startDate, deadline) pair where the deadline
parses and its midnight is on or after now, and the start date does not
parse (so no earlier rule can match), `determine_status` returns `"open"`.
A deadline equal to today's date with no start date yields `"open"` only
when now is exactly midnight, and `"unknown"` otherwise. -/
theorem C5_open_rule (start deadline : String) (now : PyTime) (D : Date)
    (hdl : parseDate deadline = some D)
    (hst : parseDate start = none)
    (hge : nowLeMidnight now D = true) :
    determine_status start deadline now = "open" := by
  simp only [determine_status, hdl, hst]
  simp [not_midnightLt_of_nowLe hge, hge]

theorem C5_open_rule_witness :
    determine_status "" "2025-10-13" ⟨⟨2025, 10, 12⟩, 36000⟩ = "open" :=
  C5_open_rule "" "2025-10-13" ⟨⟨2025, 10, 12⟩, 36000⟩ ⟨2025, 10, 13⟩
    (by decide) (by decide) (by decide)

/-- C6: boundary vectors of the status resolver.  (1) a deadline equal to
today's date (formatted `%Y-%m-%d`) never yields `"ended"` — the deadline
day is inclusive; (2) a deadline equal to yesterday's date yields
`"ended"` (for any valid current date with a four-digit year, any start
string); (3) a parseable start date strictly in the future with no deadline
yields `"upcoming"`; (4) no parseable dates at all yields `"unknown"`. -/
theorem C6_status_boundaries :
    (∀ (start : String) (now : PyTime),
        determine_status start (String.mk (fmtDate now.date)) now ≠ "ended") ∧
    (∀ (start : String) (now : PyTime), validDate now.date = true →
        1001 ≤ now.date.year →
        determine_status start (String.mk (fmtDate (prevDate now.date))) now
          = "ended") ∧
    (∀ (start : String) (S : Date) (now : PyTime), parseDate start = some S →
        nowLtMidnight now S = true →
        determine_status start "" now = "upcoming") ∧
    (∀ (start deadline : String) (now : PyTime), parseDate start = none →
        parseDate deadline = none →
        determine_status start deadline now = "unknown") := by
  refine ⟨?_, ?_, ?_, ?_⟩
  · intro start now
    simp only [determine_status]
    simp only [pyStrLt_irrefl, Bool.and_false, Bool.false_eq_true, if_false]
    split
    · decide
    · split
      · decide
      · split
        · decide
        · decide
  · intro start now hv h1001
    obtain ⟨hpv, hp1000, hplt⟩ := prevDate_facts hv h1001
    obtain ⟨hby, hbm, hbd⟩ := validDate_bounds hv
    obtain ⟨hpy, hpm, hpd⟩ := validDate_bounds hpv
    simp only [determine_status]
    rw [parseDate_fmtDate hpv hp1000]
    have hmid : midnightLtNow (prevDate now.date) now = true := by
      simp [midnightLtNow, hplt]
    have hstr : pyStrLt (String.mk (fmtDate (prevDate now.date))).data
        (fmtDate now.date) = true := by
      show pyStrLt (fmtDate (prevDate now.date)) (fmtDate now.date) = true
      exact fmtDate_lt hplt hpy hby hpm hbm hpd hbd
    simp [hmid, hstr]
  · intro start S now hst hlt
    have h0 : parseDate "" = none := rfl
    simp only [determine_status, hst, h0]
    simp [hlt]
  · intro start deadline now hst hdl
    simp only [determine_status, hst, hdl]
    simp

theorem C6_status_boundaries_witness :
    (determine_status ""
        (String.mk (fmtDate (⟨⟨2025, 10, 12⟩, 36000⟩ : PyTime).date))
        ⟨⟨2025, 10, 12⟩, 36000⟩ ≠ "ended") ∧
    (determine_status ""
        (String.mk (fmtDate (prevDate (⟨⟨2025, 10, 12⟩, 36000⟩ : PyTime).date)))
        ⟨⟨2025, 10, 12⟩, 36000⟩ = "ended") ∧
    determine_status "2025-11-01" "" ⟨⟨2025, 10, 12⟩, 36000⟩ = "upcoming" ∧
    determine_status "nodate" "nodate" ⟨⟨2025, 10, 12⟩, 36000⟩ = "unknown" := by
  refine ⟨C6_status_boundaries.1 "" ⟨⟨2025, 10, 12⟩, 36000⟩,
    C6_status_boundaries.2.1 "" ⟨⟨2025, 10, 12⟩, 36000⟩ (by decide) (by decide),
    C6_status_boundaries.2.2.1 "2025-11-01" ⟨2025, 11, 1⟩ ⟨⟨2025, 10, 12⟩, 36000⟩
      (by decide) (by decide),
    C6_status_boundaries.2.2.2 "nodate" "nodate" ⟨⟨2025, 10, 12⟩, 36000⟩
      (by decide) (by decide)⟩

/-- C8 (counterexample): canonicalization is not idempotent.  A `;` in the
stripped path is re-split as params on the second pass
(`http://h/x;y/` → `https://h/x;y` → `https://h/x`), and a netloc-free
path starting `////` loses a slash pair per pass
(`https://////x?a=1` → `https:////x?a=1` → `https://x?a=1`). -/
theorem C8_counterexample :
    canonicalize_url "http://h/x;y/" = some "https://h/x;y" ∧
    canonicalize_url "https://h/x;y" = some "https://h/x" ∧
    ("https://h/x;y" : String) ≠ "https://h/x" ∧
    canonicalize_url "https://////x?a=1" = some "https:////x?a=1" ∧
    canonicalize_url "https:////x?a=1" = some "https://x?a=1" ∧
    ("https:////x?a=1" : String) ≠ "https://x?a=1" := by
  refine ⟨by decide, by decide, by decide, by decide, by decide, by decide⟩

/-- C8 (amended): canonicalization is idempotent on every URL whose parse
has no `;` in the slash-stripped path and is not a netloc-free path
starting with `//`: `canonicalize_url u = some v` implies
`canonicalize_url v = some v` under those two side conditions. -/
theorem C8_canonical_idempotent (u v : String) (p : UrlParts)
    (hp : urlparseE u.data = some p)
    (hv : canonicalize_url u = some v)
    (h1 : ';' ∉ rstripSlash p.path)
    (h2 : ¬(p.netloc = [] ∧ (rstripSlash p.path).take 2 = ['/', '/'])) :
    canonicalize_url v = some v := by
  unfold canonicalize_url at hv ⊢
  cases hcu : canonicalize_url_chars u.data with
  | none =>
    rw [hcu] at hv
    simp at hv
  | some w =>
    rw [hcu] at hv
    simp at hv
    have hidem : canonicalize_url_chars w = some w := by
      by_cases hnil : u.data = []
      · rw [hnil] at hcu
        have hcu' : some ([] : List Char) = some w := hcu
        rw [show w = [] from (Option.some.inj hcu').symm]
        rfl
      · have hne : u.data.isEmpty = false := by
          cases hu : u.data with
          | nil => exact absurd hu hnil
          | cons a t => rfl
        obtain ⟨hnetF, hbrF, hpathF⟩ := urlparseE_facts hp
        simp only [canonicalize_url_chars, hne, Bool.false_eq_true, if_false,
          hp] at hcu
        rw [← Option.some.inj hcu]
        exact canonical_unsplit_idem p.netloc (rstripSlash p.path)
          (parse_qsl p.query) hnetF hbrF
          (fun c hc => hpathF c (rstripSlash_subset hc))
          (rstripSlash_no_trailing p.path) h1 h2
    rw [← hv, show (String.mk w).data = w from rfl, hidem]
    rfl

theorem C8_canonical_idempotent_witness :
    canonicalize_url "https://h/a?x=1" = some "https://h/a?x=1" :=
  C8_canonical_idempotent "http://h/a/?x=1&utm_s=2" "https://h/a?x=1"
    ⟨"http".data, "h".data, "/a/".data, [], "x=1&utm_s=2".data, []⟩
    (by decide) (by decide) (by decide) (by decide)

/-- C10: the `spm` tracking parameter is stripped.  (1) No query pair of a
canonical URL has a name lowercasing to `spm` or starting with `utm_`:
whenever `canonicalize_url u = some w` and `w` reparses, every pair of the
reparsed query passes both tests.  (2) Two URLs whose parses differ only by
one appended `spm`-named parameter (any case, no `&` in the value)
canonicalize identically and `id_from_url` assigns them the same id. -/
theorem C10_spm_invariance :
    (∀ (u w : String) (p2 : UrlParts),
        canonicalize_url u = some w →
        urlparseE w.data = some p2 →
        ∀ kv ∈ parse_qsl p2.query,
          lowerList kv.1 ≠ "spm".data ∧
            leadsWith "utm_".data (lowerList kv.1) = false) ∧
    (∀ (u1 u2 : String) (p1 : UrlParts) (nm w : List Char),
        urlparseE u1.data = some p1 →
        urlparseE u2.data =
          some { p1 with query := p1.query ++ '&' :: (nm ++ '=' :: w) } →
        lowerList nm = "spm".data →
        '&' ∉ w →
        u1.data ≠ [] → u2.data ≠ [] →
        canonicalize_url u1 = canonicalize_url u2 ∧
          id_from_url u1 = id_from_url u2) := by
  constructor
  · intro u w p2 hw hp2 kv hkv
    unfold canonicalize_url at hw
    cases hcu : canonicalize_url_chars u.data with
    | none =>
      rw [hcu] at hw
      simp at hw
    | some wc =>
      rw [hcu] at hw
      simp at hw
      have hwd : w.data = wc := by
        rw [← hw]
      rw [hwd] at hp2
      have hkeep := canonical_query_params hcu hp2 kv hkv
      simp only [keepParam, Bool.and_eq_true, Bool.not_eq_true',
        decide_eq_true_eq, bne_iff_ne, ne_eq] at hkeep
      exact ⟨hkeep.2, hkeep.1⟩
  · intro u1 u2 p1 nm w h1 h2 hnm hamp hne1 hne2
    have hchars := canonicalize_spm_append nm w h1 h2 hnm hamp hne1 hne2
    constructor
    · unfold canonicalize_url
      rw [hchars]
    · unfold id_from_url
      rw [hchars]

theorem C10_spm_invariance_witness :
    (lowerList "b".data ≠ "spm".data ∧
      leadsWith "utm_".data (lowerList "b".data) = false) ∧
    (canonicalize_url "https://h/a?b=2" =
        canonicalize_url "https://h/a?b=2&spm=9" ∧
      id_from_url "https://h/a?b=2" = id_from_url "https://h/a?b=2&spm=9") :=
  ⟨C10_spm_invariance.1 "https://h/a?spm=1&b=2" "https://h/a?b=2"
      ⟨"https".data, "h".data, "/a".data, [], "b=2".data, []⟩
      (by decide) (by decide) ("b".data, "2".data) (by decide),
    C10_spm_invariance.2 "https://h/a?b=2" "https://h/a?b=2&spm=9"
      ⟨"https".data, "h".data, "/a".data, [], "b=2".data, []⟩
      "spm".data "9".data (by decide) (by decide) (by decide) (by decide)
      (by decide) (by decide)⟩

end RaceRadar
